import Mathlib

/-!
Verification development for the BTI distributor sync engine.

The embedding below follows the source of the sync script (the full
inventory-and-price sync being the most complete snapshot, together with the
price-sync exclusion check and the special-order availability branch of the
other snapshots).  Numeric values carried by the distributor feed are modelled
as exact rationals; money values exchanged with the storefront are modelled as
the decimal strings the script actually manipulates, with `toFixed2` playing
the role of JavaScript's `Number.prototype.toFixed(2)` (round to the nearest
hundredth, ties away from zero, i.e. half-up on the absolute value, as the
ECMA-262 algorithm prescribes) and `parseDec` the role of `parseFloat` on
well-formed decimal literals.
-/

/-- One parsed row of the distributor CSV feed, after the numeric coercions
`parseInt(r.available, 10) || 0`, `parseFloat(r.your_price) || 0`,
`parseFloat(r.msrp) || 0` (non-numeric cells already coerced to 0). -/
structure Row where
  id : String
  available : Int
  your_price : Rat
  msrp : Rat
deriving DecidableEq, Repr

/-- The typed feed record stored in `btiDataMap` for one part key. -/
structure BtiRecord where
  available : Int
  cost : Rat
  msrp : Rat
deriving DecidableEq, Repr

/-- The value part of the `btiDataMap` entry built from a CSV row. -/
def toRecord (r : Row) : BtiRecord :=
  { available := r.available, cost := r.your_price, msrp := r.msrp }

/-- Lookup in the association-list model of a JavaScript `Map`. -/
def mapGet {β : Type} : List (String × β) → String → Option β
  | [], _ => none
  | (k2, v) :: rest, k => if k2 = k then some v else mapGet rest k

/-- `Map.prototype.set` semantics: replace in place if the key is present
(keeping its position), otherwise append a fresh entry. -/
def mapSet {β : Type} : List (String × β) → String → β → List (String × β)
  | [], k, v => [(k, v)]
  | (k2, v2) :: rest, k, v =>
      if k2 = k then (k, v) :: rest else (k2, v2) :: mapSet rest k v

/-- `new Map(records.map(r => [r.id, {...}]))`: the `Map` constructor inserts
the pairs in order, so a later row with the same id overwrites the earlier
one. -/
def btiDataMap (records : List Row) : List (String × BtiRecord) :=
  records.foldl (fun m r => mapSet m r.id (toRecord r)) []

/-- The decimal digit character for `d < 10`. -/
def digitChar (d : Nat) : Char := Char.ofNat (48 + d)

/-- Numeric value of a digit character. -/
def charVal (c : Char) : Nat := c.toNat - 48

/-- Recogniser for the characters `0`-`9`. -/
def isDigitChar (c : Char) : Bool := 48 ≤ c.toNat && c.toNat ≤ 57

/-- Fuel-driven base-10 printer (most significant digit first). -/
def natDigitsAux : Nat → Nat → List Char
  | 0, _ => []
  | fuel + 1, n =>
      if n < 10 then [digitChar n]
      else natDigitsAux fuel (n / 10) ++ [digitChar (n % 10)]

/-- Base-10 digit string of a natural number. -/
def natDigits (n : Nat) : List Char := natDigitsAux (n + 1) n

/-- Value of a digit string (most significant digit first). -/
def digitsVal (l : List Char) : Nat := l.foldl (fun a c => 10 * a + charVal c) 0

/-- Rendering of an amount of cents as JavaScript renders the result of
`toFixed(2)`: optional minus sign, integer part, dot, exactly two decimals. -/
def renderCents (c : Int) : String :=
  let a := c.natAbs
  String.mk ((if c < 0 then ['-'] else []) ++
    natDigits (a / 100) ++ '.' :: digitChar (a % 100 / 10) :: [digitChar (a % 10)])

/-- Parser for an unsigned decimal literal (digit chunk, optional dot and
digit chunk), the fragment of `parseFloat` the sync exchanges with the
storefront API. -/
def parseDecChars (l : List Char) : Option Rat :=
  let ip := l.takeWhile isDigitChar
  let rest := l.dropWhile isDigitChar
  if ip = [] then none
  else
    match rest with
    | [] => some (digitsVal ip)
    | '.' :: fp =>
        if fp ≠ [] ∧ fp.all isDigitChar then
          some ((digitsVal ip : Rat) + (digitsVal fp : Rat) / (10 : Rat) ^ fp.length)
        else none
    | _ => none

/-- `parseFloat` on a well-formed (optionally negated) decimal string. -/
def parseDec (s : String) : Option Rat :=
  match s.data with
  | [] => none
  | c :: rest => if c = '-' then (parseDecChars rest).map (fun q => -q) else parseDecChars (c :: rest)

/-- ECMA-262 `toFixed`: for a non-negative value pick the integer `n`
minimising the distance of `n / 100` to the value, ties resolved to the
larger `n`. -/
def bestCentsNonneg (x : Rat) : Int :=
  let y := x * 100
  let n0 := ⌊y⌋
  if y - n0 < (n0 : Rat) + 1 - y then n0 else n0 + 1

/-- The cents value printed by `toFixed(2)`: the sign is split off first and
the rounding is applied to the absolute value, as in the ECMA algorithm. -/
def toFixedCents (x : Rat) : Int :=
  if x < 0 then -(bestCentsNonneg (-x)) else bestCentsNonneg x

/-- JavaScript's `x.toFixed(2)` on the exact rational model. -/
def toFixed2 (x : Rat) : String := renderCents (toFixedCents x)

/-- `parseFloat(s).toFixed(2)` — the normalisation the script applies to the
current unit cost; an unparsable string yields the string rendered from `NaN`. -/
def normalizeDec (s : String) : String :=
  match parseDec s with
  | some q => toFixed2 q
  | none => "NaN"

/-- Modelled from the spec: "rounded to 2 decimal places using standard
half-up rounding" — the comparison value for the pricing targets. -/
def specRound2 (q : Rat) : Rat := ((⌊q * 100 + 1 / 2⌋ : Int) : Rat) / 100

/-- One storefront variant as fetched by the GraphQL read (fields that only
feed the human-readable report, such as the titles, are omitted; metafield
values are modelled after their coercions: the markup percentage after
`parseInt`, the exclusion flag after its `=== true` test). -/
structure Variant where
  id : String
  inventoryQuantity : Int
  inventoryPolicy : String
  price : String
  compareAtPrice : Option String
  unitCostAmount : Option String
  inventoryItemId : String
  btiPartNumber : String
  outOfStockAction : Option String
  priceAdjustmentPercentage : Option Int
  excludeFromPriceSync : Bool
deriving DecidableEq, Repr

/-- A change the Reconciler asks the Executor to perform: either an inventory
policy update (`updateVariantInventoryPolicy`) or a combined price / compare-at
/ cost update (`updateVariantPricing`). -/
inductive Intent where
  | setPolicy (variantId : String) (policy : String)
  | setPricing (variantId : String) (price compareAt cost inventoryItemId : String)
deriving DecidableEq, Repr

/-- The variant id an intent writes to. -/
def intentTarget : Intent → String
  | .setPolicy vid _ => vid
  | .setPricing vid _ _ _ _ => vid

/-- The availability decision of the full sync: under the
`Make Unavailable (Track Inventory)` action (or a missing / empty metafield)
an out-of-stock variant still set to `CONTINUE` is denied, and an in-stock
variant not set to `CONTINUE` is re-enabled. -/
def sellabilityIntents (bti : BtiRecord) (v : Variant) : List Intent :=
  if v.outOfStockAction = some "Make Unavailable (Track Inventory)" ∨
     v.outOfStockAction = none ∨ v.outOfStockAction = some "" then
    if v.inventoryQuantity ≤ 0 ∧ bti.available ≤ 0 then
      if v.inventoryPolicy = "CONTINUE" then [Intent.setPolicy v.id "DENY"] else []
    else
      if v.inventoryPolicy = "CONTINUE" then [] else [Intent.setPolicy v.id "CONTINUE"]
  else []

/-- The pricing decision of the full sync, guarded by the price-sync exclusion
flag: targets are computed from the feed msrp and cost via `toFixed(2)` and an
update is issued only when one of the three rendered targets differs from the
stored value (the current cost being normalised through
`parseFloat(...).toFixed(2)` first). -/
def pricingIntents (bti : BtiRecord) (v : Variant) : List Intent :=
  if v.excludeFromPriceSync then []
  else if 0 < bti.msrp ∧ 0 < bti.cost then
    let newPrices : String × String :=
      match v.priceAdjustmentPercentage with
      | some pct =>
          let p := toFixed2 (bti.msrp * (1 + (pct : Rat) / 100))
          (p, p)
      | none => (toFixed2 (bti.msrp * (99 / 100)), toFixed2 bti.msrp)
    let newPrice := newPrices.1
    let newCompareAtPrice := newPrices.2
    let newCost := toFixed2 bti.cost
    let currentCost := v.unitCostAmount.map normalizeDec
    if newPrice ≠ v.price ∨ some newCompareAtPrice ≠ v.compareAtPrice ∨
       some newCost ≠ currentCost then
      [Intent.setPricing v.id newPrice newCompareAtPrice newCost v.inventoryItemId]
    else []
  else []

/-- The Reconciler decision for one variant: skip unmatched part numbers,
otherwise the availability intent followed by the pricing intent. -/
def reconcileVariant (feed : List (String × BtiRecord)) (v : Variant) : List Intent :=
  match mapGet feed v.btiPartNumber with
  | none => []
  | some bti => sellabilityIntents bti v ++ pricingIntents bti v

/-- The Reconciler over the fetched variant sequence, in fetch order. -/
def reconcile (feed : List (String × BtiRecord)) (vs : List Variant) : List Intent :=
  (vs.map (reconcileVariant feed)).flatten

/-- The availability decision of the inventory-only sync snapshots: a missing
feed record defaults to quantity 0, a missing or empty action metafield
defaults to `Make Unavailable (Track Inventory)`, and the
`Switch to Special Order Template` action keeps the variant sellable
regardless of stock. -/
def availabilityIntentsInvOnly (btiStockMap : List (String × Int)) (v : Variant) : List Intent :=
  let btiStock := (mapGet btiStockMap v.btiPartNumber).getD 0
  let action :=
    match v.outOfStockAction with
    | none => "Make Unavailable (Track Inventory)"
    | some s => if s = "" then "Make Unavailable (Track Inventory)" else s
  let isTrulyOutOfStock := v.inventoryQuantity ≤ 0 ∧ btiStock ≤ 0
  if action = "Make Unavailable (Track Inventory)" then
    if isTrulyOutOfStock ∧ v.inventoryPolicy = "CONTINUE" then [Intent.setPolicy v.id "DENY"]
    else if ¬isTrulyOutOfStock ∧ v.inventoryPolicy ≠ "CONTINUE" then
      [Intent.setPolicy v.id "CONTINUE"]
    else []
  else if action = "Switch to Special Order Template" then
    if v.inventoryPolicy ≠ "CONTINUE" then [Intent.setPolicy v.id "CONTINUE"] else []
  else []

/-- Effect of one applied intent on the stored variant state (writes to other
variants leave this one unchanged). -/
def applyIntent (v : Variant) : Intent → Variant
  | .setPolicy vid pol => if vid = v.id then { v with inventoryPolicy := pol } else v
  | .setPricing vid pr ca co _ =>
      if vid = v.id then
        { v with price := pr, compareAtPrice := some ca, unitCostAmount := some co }
      else v

/-- Effect of a sequence of applied intents. -/
def applyIntents (l : List Intent) (v : Variant) : Variant := l.foldl applyIntent v

/-- Externally observable actions of the Executor: the two write calls and the
rate-limiting pause (`sleep`). -/
inductive Ev where
  | writePolicy (variantId policy : String)
  | writePricing (variantId price compareAt cost inventoryItemId : String)
  | sleepMs (ms : Nat)
deriving DecidableEq, Repr

/-- The write call an intent turns into. -/
def intentEv : Intent → Ev
  | .setPolicy vid pol => Ev.writePolicy vid pol
  | .setPricing vid pr ca co iid => Ev.writePricing vid pr ca co iid

/-- Whether an event is an API write call (as opposed to a pause). -/
def isWriteEv : Ev → Bool
  | .sleepMs _ => false
  | _ => true

/-- The write calls of a trace. -/
def writeEvs (l : List Ev) : List Ev := l.filter isWriteEv

/-- Number of write calls in a trace. -/
def numWrites (l : List Ev) : Nat := (writeEvs l).length

/-- Number of pauses in a trace. -/
def numSleeps (l : List Ev) : Nat := (l.filter (fun e => !isWriteEv e)).length

/-- Issue the write calls of one variant's intents in order.  `oracle k`
tells whether the `k`-th write call of the run (counted from 0) succeeds; a
failed call throws, so the remaining intents of the variant are skipped and
the events up to and including the failed call are the whole tail of the
run's trace. -/
def execIntents (oracle : Nat → Bool) : List Intent → Nat → Except (List Ev) (List Ev × Nat)
  | [], k => Except.ok ([], k)
  | i :: rest, k =>
      if oracle k then
        match execIntents oracle rest (k + 1) with
        | Except.ok (evs, n) => Except.ok (intentEv i :: evs, n)
        | Except.error evs => Except.error (intentEv i :: evs)
      else Except.error [intentEv i]

/-- Process one variant: perform its writes and, when at least one update
occurred (`hasUpdateOccurred`), pause 550 ms before the next variant. -/
def execVariant (feed : List (String × BtiRecord)) (oracle : Nat → Bool) (v : Variant)
    (k : Nat) : Except (List Ev) (List Ev × Nat) :=
  match execIntents oracle (reconcileVariant feed v) k with
  | Except.error evs => Except.error evs
  | Except.ok (evs, n) =>
      if evs = [] then Except.ok ([], n) else Except.ok (evs ++ [Ev.sleepMs 550], n)

/-- The per-variant update loop.  A thrown write error propagates to the
handler's catch block, which reports HTTP 500; otherwise the run ends with
HTTP 200. -/
def execAll (feed : List (String × BtiRecord)) (oracle : Nat → Bool) :
    List Variant → Nat → Nat × List Ev
  | [], _ => (200, [])
  | v :: rest, k =>
      match execVariant feed oracle v k with
      | Except.ok (evs, n) =>
          let r := execAll feed oracle rest n
          (r.1, evs ++ r.2)
      | Except.error evs => (500, evs)

/-- One full sync run over the fetched variants, starting at write call 0. -/
def runSync (feed : List (String × BtiRecord)) (vs : List Variant) (oracle : Nat → Bool) :
    Nat × List Ev :=
  execAll feed oracle vs 0

/-- The trace of a run in which every write succeeds: each variant's writes in
order, followed by one pause whenever the variant had at least one update. -/
def successTrace (feed : List (String × BtiRecord)) (vs : List Variant) : List Ev :=
  (vs.map (fun v =>
    let l := reconcileVariant feed v
    if l = [] then [] else l.map intentEv ++ [Ev.sleepMs 550])).flatten

/-- Concrete feed record with no stock and no usable pricing data. -/
def recZero : BtiRecord := { available := 0, cost := 0, msrp := 0 }

/-- Concrete feed record with no stock but valid pricing data. -/
def recPriced : BtiRecord := { available := 0, cost := 1, msrp := 100 }

/-- Concrete feed record with stock and valid pricing data. -/
def recStocked : BtiRecord := { available := 5, cost := 1, msrp := 100 }

/-- Concrete feed carrying `recZero` under part key `P1`. -/
def feedZero : List (String × BtiRecord) := [("P1", recZero)]

/-- Concrete feed carrying `recPriced` under part key `P1`. -/
def feedPriced : List (String × BtiRecord) := [("P1", recPriced)]

/-- Concrete feed carrying `recStocked` under part key `P1`. -/
def feedStocked : List (String × BtiRecord) := [("P1", recStocked)]

/-- Concrete out-of-stock variant still set to keep selling; its only needed
update is the availability write. -/
def vOut (i : String) : Variant :=
  { id := i, inventoryQuantity := 0, inventoryPolicy := "CONTINUE", price := "10.00",
    compareAtPrice := none, unitCostAmount := none, inventoryItemId := "I1",
    btiPartNumber := "P1", outOfStockAction := none, priceAdjustmentPercentage := none,
    excludeFromPriceSync := false }

/-- Concrete out-of-stock variant needing both an availability update and a
pricing update. -/
def vBoth : Variant :=
  { id := "V7", inventoryQuantity := 0, inventoryPolicy := "CONTINUE", price := "50.00",
    compareAtPrice := none, unitCostAmount := none, inventoryItemId := "I7",
    btiPartNumber := "P1", outOfStockAction := none, priceAdjustmentPercentage := none,
    excludeFromPriceSync := false }

/-- Concrete in-stock variant whose stored price `"99.0"` is numerically equal
to the computed target `"99.00"` but differs as a raw string. -/
def vRaw : Variant :=
  { id := "V6", inventoryQuantity := 3, inventoryPolicy := "CONTINUE", price := "99.0",
    compareAtPrice := some "100.00", unitCostAmount := some "1.00", inventoryItemId := "I6",
    btiPartNumber := "P1", outOfStockAction := none, priceAdjustmentPercentage := none,
    excludeFromPriceSync := false }

/-- Concrete variant with a 10 percent markup metafield (scenario C of the
spec). -/
def vMarkup : Variant :=
  { id := "V5", inventoryQuantity := 3, inventoryPolicy := "CONTINUE", price := "95.00",
    compareAtPrice := some "95.00", unitCostAmount := some "1.00", inventoryItemId := "I5",
    btiPartNumber := "P1", outOfStockAction := none, priceAdjustmentPercentage := some 10,
    excludeFromPriceSync := false }

/-- Concrete variant with local stock but a blocking inventory policy. -/
def vLocal : Variant :=
  { id := "V3", inventoryQuantity := 5, inventoryPolicy := "DENY", price := "10.00",
    compareAtPrice := none, unitCostAmount := none, inventoryItemId := "I3",
    btiPartNumber := "P1", outOfStockAction := none, priceAdjustmentPercentage := none,
    excludeFromPriceSync := false }

/-- Concrete special-order variant currently blocked. -/
def vSpecial : Variant :=
  { id := "V8", inventoryQuantity := 0, inventoryPolicy := "DENY", price := "10.00",
    compareAtPrice := none, unitCostAmount := none, inventoryItemId := "I8",
    btiPartNumber := "P1", outOfStockAction := some "Switch to Special Order Template",
    priceAdjustmentPercentage := none, excludeFromPriceSync := false }

/-- Concrete variant whose part number is absent from the feed. -/
def vUnmatched : Variant :=
  { id := "V9", inventoryQuantity := 0, inventoryPolicy := "CONTINUE", price := "10.00",
    compareAtPrice := none, unitCostAmount := none, inventoryItemId := "I9",
    btiPartNumber := "NOPE", outOfStockAction := none, priceAdjustmentPercentage := none,
    excludeFromPriceSync := false }

/-- Concrete stock-only feed map for the inventory-only availability logic. -/
def stockMapOne : List (String × Int) := [("P1", 0)]

/-- Oracle under which every write call succeeds. -/
def oracleTrue : Nat → Bool := fun _ => true

/-- Oracle under which every write call fails. -/
def oracleFalse : Nat → Bool := fun _ => false

/-- Modelled from the spec: "string-normalized 2-decimal comparison" — a
stored money string equals a target when both normalise to the same 2-decimal
rendering. -/
def normSameStr (cur tgt : String) : Prop := normalizeDec cur = normalizeDec tgt

/-- Modelled from the spec: the string-normalized 2-decimal comparison of an
optional stored money string against a target. -/
def normSameOpt (cur : Option String) (tgt : String) : Prop :=
  cur.map normalizeDec = some (normalizeDec tgt)

/-! Digit and decimal-string machinery. -/

theorem digitChar_toNat {d : Nat} (h : d < 10) : (digitChar d).toNat = 48 + d := by
  interval_cases d <;> rfl

theorem charVal_digitChar {d : Nat} (h : d < 10) : charVal (digitChar d) = d := by
  interval_cases d <;> rfl

theorem isDigitChar_digitChar {d : Nat} (h : d < 10) : isDigitChar (digitChar d) = true := by
  interval_cases d <;> rfl

theorem digitChar_ne_dash {d : Nat} (h : d < 10) : digitChar d ≠ '-' := by
  interval_cases d <;> decide

theorem natDigitsAux_ne_nil {fuel n : Nat} (h : n < fuel) : natDigitsAux fuel n ≠ [] := by
  cases fuel with
  | zero => omega
  | succ m =>
      rw [natDigitsAux]
      split
      · exact List.cons_ne_nil _ _
      · exact List.append_ne_nil_of_right_ne_nil _ (List.cons_ne_nil _ _)

theorem natDigitsAux_digits {fuel : Nat} :
    ∀ {n : Nat}, n < fuel → ∀ c ∈ natDigitsAux fuel n, isDigitChar c = true := by
  induction fuel with
  | zero => intro n h; omega
  | succ m ih =>
      intro n h c hc
      rw [natDigitsAux] at hc
      by_cases h10 : n < 10
      · rw [if_pos h10] at hc
        rw [List.mem_singleton] at hc
        subst hc
        exact isDigitChar_digitChar h10
      · rw [if_neg h10] at hc
        rcases List.mem_append.mp hc with hc | hc
        · exact ih (by have := Nat.div_lt_self (by omega : 0 < n) (by omega : 1 < 10); omega) c hc
        · rw [List.mem_singleton] at hc
          subst hc
          exact isDigitChar_digitChar (Nat.mod_lt _ (by omega))

theorem digitsVal_from (l : List Char) :
    ∀ a : Nat, l.foldl (fun a c => 10 * a + charVal c) a = a * 10 ^ l.length + digitsVal l := by
  induction l with
  | nil => intro a; simp [digitsVal]
  | cons c t ih =>
      intro a
      have h2 : digitsVal (c :: t) = charVal c * 10 ^ t.length + digitsVal t := by
        rw [digitsVal, List.foldl_cons, ih (10 * 0 + charVal c)]
        ring
      rw [List.foldl_cons, ih (10 * a + charVal c), h2, List.length_cons]
      ring

theorem digitsVal_append (l1 l2 : List Char) :
    digitsVal (l1 ++ l2) = digitsVal l1 * 10 ^ l2.length + digitsVal l2 := by
  rw [digitsVal, List.foldl_append, ← digitsVal, digitsVal_from]

theorem natDigitsAux_val {fuel : Nat} :
    ∀ {n : Nat}, n < fuel → digitsVal (natDigitsAux fuel n) = n := by
  induction fuel with
  | zero => intro n h; omega
  | succ m ih =>
      intro n h
      rw [natDigitsAux]
      by_cases h10 : n < 10
      · rw [if_pos h10]
        simp [digitsVal, charVal_digitChar h10]
      · rw [if_neg h10, digitsVal_append]
        have hd : n / 10 < m := by
          have := Nat.div_lt_self (by omega : 0 < n) (by omega : 1 < 10); omega
        rw [ih hd]
        simp [digitsVal, charVal_digitChar (Nat.mod_lt n (by omega : 0 < 10))]
        omega

theorem natDigits_ne_nil (n : Nat) : natDigits n ≠ [] :=
  natDigitsAux_ne_nil (Nat.lt_succ_self n)

theorem natDigits_digits (n : Nat) : ∀ c ∈ natDigits n, isDigitChar c = true :=
  natDigitsAux_digits (Nat.lt_succ_self n)

theorem natDigits_val (n : Nat) : digitsVal (natDigits n) = n :=
  natDigitsAux_val (Nat.lt_succ_self n)

theorem takeWhile_all_append {p : Char → Bool} :
    ∀ (l1 : List Char) (c : Char) (l2 : List Char), (∀ x ∈ l1, p x = true) → p c = false →
      (l1 ++ c :: l2).takeWhile p = l1 ∧ (l1 ++ c :: l2).dropWhile p = c :: l2 := by
  intro l1
  induction l1 with
  | nil => intro c l2 _ hc; simp [List.takeWhile_cons, List.dropWhile_cons, hc]
  | cons a t ih =>
      intro c l2 h1 hc
      have ha : p a = true := h1 a (List.mem_cons_self a t)
      have ht := ih c l2 (fun x hx => h1 x (List.mem_cons_of_mem a hx)) hc
      simp [List.takeWhile_cons, List.dropWhile_cons, ha, ht.1, ht.2]

theorem isDigitChar_ne_dash {c : Char} (h : isDigitChar c = true) : c ≠ '-' := by
  intro hc
  rw [hc] at h
  exact absurd h (by decide)

theorem digitsVal_two {a b : Nat} (ha : a < 10) (hb : b < 10) :
    digitsVal [digitChar a, digitChar b] = 10 * a + b := by
  simp [digitsVal, charVal_digitChar ha, charVal_digitChar hb]

theorem parseDecChars_render (q r : Nat) (hr : r < 100) :
    parseDecChars (natDigits q ++ '.' :: digitChar (r / 10) :: [digitChar (r % 10)]) =
      some ((q : Rat) + (r : Rat) / 100) := by
  obtain ⟨ht, hd⟩ :=
    takeWhile_all_append (natDigits q) '.' (digitChar (r / 10) :: [digitChar (r % 10)])
      (natDigits_digits q) rfl
  have h10 : r / 10 < 10 := by omega
  have h1 : r % 10 < 10 := Nat.mod_lt _ (by omega)
  simp only [parseDecChars, ht, hd]
  rw [if_neg (natDigits_ne_nil q)]
  rw [if_pos ⟨by simp, by simp [isDigitChar_digitChar h10, isDigitChar_digitChar h1]⟩]
  rw [natDigits_val, digitsVal_two h10 h1]
  have hv : (10 * (r / 10) + r % 10 : Nat) = r := by omega
  rw [hv]
  norm_num

theorem parseDecChars_render_full (a : Nat) :
    parseDecChars (natDigits (a / 100) ++ '.' ::
        digitChar (a % 100 / 10) :: [digitChar (a % 10)]) = some ((a : Rat) / 100) := by
  have hm : a % 10 = a % 100 % 10 := (Nat.mod_mod_of_dvd a (by norm_num)).symm
  rw [hm, parseDecChars_render (a / 100) (a % 100) (Nat.mod_lt _ (by omega))]
  congr 1
  have h := Nat.div_add_mod a 100
  calc ((a / 100 : Nat) : Rat) + ((a % 100 : Nat) : Rat) / 100
      = ((100 * (a / 100) + a % 100 : Nat) : Rat) / 100 := by push_cast; ring
    _ = (a : Rat) / 100 := by rw [h]

theorem parseDec_renderCents (c : Int) : parseDec (renderCents c) = some ((c : Rat) / 100) := by
  by_cases hc : c < 0
  · have hmk : renderCents c = String.mk ('-' :: (natDigits (c.natAbs / 100) ++ '.' ::
        digitChar (c.natAbs % 100 / 10) :: [digitChar (c.natAbs % 10)])) := by
      rw [renderCents]
      simp [hc]
    rw [hmk]
    have hstep : parseDec (String.mk ('-' :: (natDigits (c.natAbs / 100) ++ '.' ::
        digitChar (c.natAbs % 100 / 10) :: [digitChar (c.natAbs % 10)]))) =
        (parseDecChars (natDigits (c.natAbs / 100) ++ '.' ::
          digitChar (c.natAbs % 100 / 10) :: [digitChar (c.natAbs % 10)])).map
            (fun q => -q) := rfl
    rw [hstep, parseDecChars_render_full c.natAbs]
    have hna : ((c.natAbs : Nat) : Rat) = -(c : Rat) := by
      rw [Int.cast_natAbs]
      exact_mod_cast abs_of_neg hc
    simp only [Option.map_some']
    rw [hna]
    congr 1
    ring
  · have hmk : renderCents c = String.mk (natDigits (c.natAbs / 100) ++ '.' ::
        digitChar (c.natAbs % 100 / 10) :: [digitChar (c.natAbs % 10)]) := by
      rw [renderCents]
      simp [hc]
    rcases hnd : natDigits (c.natAbs / 100) with _ | ⟨d, ds⟩
    · exact absurd hnd (natDigits_ne_nil _)
    · have hdd : isDigitChar d = true := by
        apply natDigits_digits (c.natAbs / 100)
        rw [hnd]
        exact List.mem_cons_self d ds
      rw [hmk, hnd]
      have hstep : parseDec (String.mk (d :: (ds ++ '.' ::
          digitChar (c.natAbs % 100 / 10) :: [digitChar (c.natAbs % 10)]))) =
          if d = '-' then
            (parseDecChars (ds ++ '.' ::
              digitChar (c.natAbs % 100 / 10) :: [digitChar (c.natAbs % 10)])).map
                (fun q => -q)
          else parseDecChars (d :: (ds ++ '.' ::
            digitChar (c.natAbs % 100 / 10) :: [digitChar (c.natAbs % 10)])) := rfl
      rw [List.cons_append, hstep, if_neg (isDigitChar_ne_dash hdd), ← List.cons_append, ← hnd,
        parseDecChars_render_full c.natAbs]
      have hna : ((c.natAbs : Nat) : Rat) = (c : Rat) := by
        rw [Int.cast_natAbs]
        exact_mod_cast abs_of_nonneg (not_lt.mp hc)
      rw [hna]

theorem bestCentsNonneg_intCents (c : Int) : bestCentsNonneg ((c : Rat) / 100) = c := by
  have hy : ((c : Rat) / 100) * 100 = (c : Rat) := by field_simp
  simp only [bestCentsNonneg, hy, Int.floor_intCast]
  rw [if_pos (by norm_num)]

theorem toFixedCents_intCents (c : Int) : toFixedCents ((c : Rat) / 100) = c := by
  rw [toFixedCents]
  by_cases h : (c : Rat) / 100 < 0
  · rw [if_pos h]
    have hneg : -((c : Rat) / 100) = ((-c : Int) : Rat) / 100 := by push_cast; ring
    rw [hneg, bestCentsNonneg_intCents, neg_neg]
  · rw [if_neg h, bestCentsNonneg_intCents]

theorem toFixed2_intCents (c : Int) : toFixed2 ((c : Rat) / 100) = renderCents c := by
  rw [toFixed2, toFixedCents_intCents]

theorem normalizeDec_toFixed2 (x : Rat) : normalizeDec (toFixed2 x) = toFixed2 x := by
  rw [toFixed2, normalizeDec, parseDec_renderCents]
  show toFixed2 (((toFixedCents x : Int) : Rat) / 100) = renderCents (toFixedCents x)
  rw [toFixed2_intCents]

theorem toFixedCents_nonneg_eq {x : Rat} (hx : 0 ≤ x) :
    toFixedCents x = ⌊x * 100 + 1 / 2⌋ := by
  rw [toFixedCents, if_neg (not_lt.mpr (by linarith : (0 : Rat) ≤ x))]
  rw [bestCentsNonneg]
  have hle : ((⌊x * 100⌋ : Int) : Rat) ≤ x * 100 := Int.floor_le _
  have hlt : x * 100 < (⌊x * 100⌋ : Int) + 1 := Int.lt_floor_add_one _
  by_cases hc : x * 100 - (⌊x * 100⌋ : Int) < ((⌊x * 100⌋ : Int) : Rat) + 1 - x * 100
  · rw [if_pos hc]
    symm
    rw [Int.floor_eq_iff]
    constructor
    · linarith
    · linarith
  · rw [if_neg hc]
    symm
    rw [Int.floor_eq_iff]
    push_cast
    constructor
    · linarith [not_lt.mp hc]
    · linarith

theorem parseDec_toFixed2 {x : Rat} (hx : 0 ≤ x) :
    parseDec (toFixed2 x) = some (specRound2 x) := by
  rw [toFixed2, parseDec_renderCents, toFixedCents_nonneg_eq hx, specRound2]

/-! Association-list map lemmas (JavaScript `Map` semantics). -/

theorem mapGet_set_self {β : Type} (m : List (String × β)) (k : String) (v : β) :
    mapGet (mapSet m k v) k = some v := by
  induction m with
  | nil => simp [mapSet, mapGet]
  | cons p rest ih =>
      obtain ⟨k2, v2⟩ := p
      rw [mapSet]
      by_cases h : k2 = k
      · rw [if_pos h, mapGet, if_pos rfl]
      · rw [if_neg h, mapGet, if_neg h]
        exact ih

theorem mapGet_set_ne {β : Type} (m : List (String × β)) (k q : String) (v : β)
    (h : k ≠ q) : mapGet (mapSet m k v) q = mapGet m q := by
  induction m with
  | nil => simp [mapSet, mapGet, h]
  | cons p rest ih =>
      obtain ⟨k2, v2⟩ := p
      rw [mapSet]
      by_cases h2 : k2 = k
      · rw [if_pos h2, mapGet, if_neg h, mapGet, if_neg (h2 ▸ h)]
      · rw [if_neg h2, mapGet, mapGet]
        by_cases h3 : k2 = q
        · rw [if_pos h3, if_pos h3]
        · rw [if_neg h3, if_neg h3]
          exact ih

theorem mapSet_keys {β : Type} (m : List (String × β)) (k : String) (v : β) :
    (mapSet m k v).map Prod.fst =
      if k ∈ m.map Prod.fst then m.map Prod.fst else m.map Prod.fst ++ [k] := by
  induction m with
  | nil => simp [mapSet]
  | cons p rest ih =>
      obtain ⟨k2, v2⟩ := p
      rw [mapSet]
      by_cases h : k2 = k
      · subst h
        simp
      · rw [if_neg h, List.map_cons, ih, List.map_cons]
        by_cases h2 : k ∈ rest.map Prod.fst
        · rw [if_pos h2, if_pos (by simp [h2])]
        · rw [if_neg h2, if_neg (by simp [h2]; exact fun hh => h hh.symm)]
          simp

theorem mapSet_keys_nodup {β : Type} (m : List (String × β)) (k : String) (v : β)
    (h : (m.map Prod.fst).Nodup) : ((mapSet m k v).map Prod.fst).Nodup := by
  rw [mapSet_keys]
  by_cases h2 : k ∈ m.map Prod.fst
  · rw [if_pos h2]
    exact h
  · rw [if_neg h2]
    simp [List.nodup_append, h, h2]

theorem mapSet_keys_mem {β : Type} (m : List (String × β)) (k q : String) (v : β) :
    q ∈ (mapSet m k v).map Prod.fst ↔ q = k ∨ q ∈ m.map Prod.fst := by
  rw [mapSet_keys]
  by_cases h2 : k ∈ m.map Prod.fst
  · rw [if_pos h2]
    constructor
    · intro h3
      exact Or.inr h3
    · rintro (h3 | h3)
      · rw [h3]
        exact h2
      · exact h3
  · rw [if_neg h2]
    simp [or_comm]

theorem find?_append_eq {α : Type} (p : α → Bool) :
    ∀ l1 l2 : List α, (l1 ++ l2).find? p =
      match l1.find? p with
      | some a => some a
      | none => l2.find? p := by
  intro l1
  induction l1 with
  | nil => intro l2; rfl
  | cons a t ih =>
      intro l2
      cases hpa : p a <;> simp [List.find?, hpa, ih]

theorem btiDataMapAux_get (rows : List Row) :
    ∀ (m : List (String × BtiRecord)) (k : String),
      mapGet (rows.foldl (fun m r => mapSet m r.id (toRecord r)) m) k =
        match rows.reverse.find? (fun row => row.id == k) with
        | some row => some (toRecord row)
        | none => mapGet m k := by
  induction rows with
  | nil => intro m k; rfl
  | cons r rest ih =>
      intro m k
      rw [List.foldl_cons, ih, List.reverse_cons, find?_append_eq]
      cases hf : rest.reverse.find? (fun row => row.id == k) with
      | some r2 => rfl
      | none =>
          by_cases hid : r.id = k
          · have h1 : [r].find? (fun row => row.id == k) = some r := by
              simp [List.find?, hid]
            rw [h1]
            show mapGet (mapSet m r.id (toRecord r)) k = some (toRecord r)
            subst hid
            exact mapGet_set_self m r.id (toRecord r)
          · have h1 : [r].find? (fun row => row.id == k) = none := by
              have hb : (r.id == k) = false := beq_eq_false_iff_ne.mpr hid
              simp [List.find?, hb]
            rw [h1]
            show mapGet (mapSet m r.id (toRecord r)) k = mapGet m k
            exact mapGet_set_ne m r.id k (toRecord r) hid

theorem btiDataMapAux_nodup (rows : List Row) :
    ∀ m : List (String × BtiRecord), (m.map Prod.fst).Nodup →
      (((rows.foldl (fun m r => mapSet m r.id (toRecord r)) m)).map Prod.fst).Nodup := by
  induction rows with
  | nil => intro m h; exact h
  | cons r rest ih =>
      intro m h
      rw [List.foldl_cons]
      exact ih _ (mapSet_keys_nodup m r.id (toRecord r) h)

theorem btiDataMapAux_mem (rows : List Row) :
    ∀ (m : List (String × BtiRecord)) (k : String),
      k ∈ ((rows.foldl (fun m r => mapSet m r.id (toRecord r)) m)).map Prod.fst ↔
        (∃ r ∈ rows, r.id = k) ∨ k ∈ m.map Prod.fst := by
  induction rows with
  | nil => intro m k; simp
  | cons r rest ih =>
      intro m k
      rw [List.foldl_cons, ih, mapSet_keys_mem]
      constructor
      · rintro (⟨r2, hr2, hid⟩ | hkr | h)
        · exact Or.inl ⟨r2, List.mem_cons_of_mem r hr2, hid⟩
        · exact Or.inl ⟨r, List.mem_cons_self r rest, hkr.symm⟩
        · exact Or.inr h
      · rintro (⟨r2, hr2, hid⟩ | h)
        · rcases List.mem_cons.mp hr2 with h2 | h2
          · subst h2
            exact Or.inr (Or.inl hid.symm)
          · exact Or.inl ⟨r2, h2, hid⟩
        · exact Or.inr (Or.inr h)

/-- C10: when the distributor feed contains several rows with the same part
key, the normaliser's map binds the key to the values of the last such row
(earlier duplicates are discarded), and the reported feed item count — the
map's size — counts distinct keys, not rows. -/
theorem feed_duplicate_rows_last_wins (rows : List Row) (k : String) :
    mapGet (btiDataMap rows) k = (rows.reverse.find? (fun row => row.id == k)).map toRecord
    ∧ (btiDataMap rows).length = ((rows.map Row.id).toFinset).card := by
  constructor
  · rw [btiDataMap, btiDataMapAux_get]
    cases rows.reverse.find? (fun row => row.id == k) <;> rfl
  · have hnodup : ((btiDataMap rows).map Prod.fst).Nodup :=
      btiDataMapAux_nodup rows [] (by simp)
    have hfs : ((btiDataMap rows).map Prod.fst).toFinset = (rows.map Row.id).toFinset := by
      ext x
      simp only [List.mem_toFinset]
      rw [btiDataMap, btiDataMapAux_mem]
      simp [List.mem_map]
    have hlen : (btiDataMap rows).length = ((btiDataMap rows).map Prod.fst).length :=
      (List.length_map _ _).symm
    rw [hlen, ← List.toFinset_card_of_nodup hnodup, hfs]

/-! Shape lemmas for the Reconciler's intent lists. -/

theorem pricing_shape (bti : BtiRecord) (v : Variant) :
    ∀ i ∈ pricingIntents bti v,
      ∃ pr ca co, i = Intent.setPricing v.id pr ca co v.inventoryItemId := by
  intro i hi
  cases hpct : v.priceAdjustmentPercentage with
  | none =>
      simp only [pricingIntents, hpct] at hi
      split_ifs at hi with h1 h2 h3
      · cases hi
      · rw [List.mem_singleton] at hi
        exact ⟨_, _, _, hi⟩
      · cases hi
      · cases hi
  | some pct =>
      simp only [pricingIntents, hpct] at hi
      split_ifs at hi with h1 h2 h3
      · cases hi
      · rw [List.mem_singleton] at hi
        exact ⟨_, _, _, hi⟩
      · cases hi
      · cases hi

theorem setPolicy_not_mem_pricing (bti : BtiRecord) (v : Variant) (vid pol : String) :
    Intent.setPolicy vid pol ∉ pricingIntents bti v := by
  intro hmem
  obtain ⟨pr, ca, co, he⟩ := pricing_shape bti v _ hmem
  simp at he

theorem sellability_shape (bti : BtiRecord) (v : Variant) :
    ∀ i ∈ sellabilityIntents bti v,
      i = Intent.setPolicy v.id "DENY" ∨ i = Intent.setPolicy v.id "CONTINUE" := by
  intro i hi
  rw [sellabilityIntents] at hi
  split_ifs at hi with h1 h2 h3 h4
  · rw [List.mem_singleton] at hi
    exact Or.inl hi
  · cases hi
  · cases hi
  · rw [List.mem_singleton] at hi
    exact Or.inr hi
  · cases hi

theorem setPricing_not_mem_sellability (bti : BtiRecord) (v : Variant)
    (vid pr ca co iid : String) :
    Intent.setPricing vid pr ca co iid ∉ sellabilityIntents bti v := by
  intro hmem
  rcases sellability_shape bti v _ hmem with he | he <;> simp at he

/-- C9: a variant whose part number has no feed record produces no intents at
all; the missing match is simply skipped, not treated as an error. -/
theorem unmatched_no_intents (feed : List (String × BtiRecord)) (v : Variant)
    (h : mapGet feed v.btiPartNumber = none) : reconcileVariant feed v = [] := by
  rw [reconcileVariant, h]

/-- Witness for `unmatched_no_intents` at a concrete unmatched variant. -/
theorem unmatched_no_intents_witness : reconcileVariant feedZero vUnmatched = [] :=
  unmatched_no_intents feedZero vUnmatched (by decide)

/-- C3 (amended): with positive local stock the variant is never made
unavailable — no `DENY` (block-when-out-of-stock) intent is ever emitted —
though a `CONTINUE` (allow-backorder) intent may still be emitted when the
current policy blocks sales. -/
theorem localstock_never_unavailable (feed : List (String × BtiRecord)) (v : Variant)
    (h : 0 < v.inventoryQuantity) :
    Intent.setPolicy v.id "DENY" ∉ reconcileVariant feed v := by
  intro hmem
  rw [reconcileVariant] at hmem
  cases hm : mapGet feed v.btiPartNumber with
  | none => rw [hm] at hmem; cases hmem
  | some bti =>
      rw [hm] at hmem
      rcases List.mem_append.mp hmem with hs | hp
      · rw [sellabilityIntents] at hs
        split_ifs at hs with h1 h2 h3 h4
        · omega
        · cases hs
        · cases hs
        · rw [List.mem_singleton] at hs
          simp at hs
        · cases hs
      · exact setPolicy_not_mem_pricing bti v _ _ hp

/-- Witness for `localstock_never_unavailable` at a concrete in-stock
variant. -/
theorem localstock_never_unavailable_witness :
    Intent.setPolicy vLocal.id "DENY" ∉ reconcileVariant feedZero vLocal :=
  localstock_never_unavailable feedZero vLocal (by decide)

/-- C3 counterexample: the claim that an item with positive local stock never
receives any sellability intent is false — a variant with stock 5 and a
blocking policy gets an allow-backorder intent. -/
theorem localstock_sellability_counterexample :
    ¬ (∀ (feed : List (String × BtiRecord)) (v : Variant), 0 < v.inventoryQuantity →
        ∀ pol : String, Intent.setPolicy v.id pol ∉ reconcileVariant feed v) := by
  intro h
  exact h feedZero vLocal (by decide) "CONTINUE" (by decide)

/-- C4: under the default / blocking out-of-stock action, the sellability
decision for a matched pair is exactly: emit `DENY` (block when out of stock)
iff the pair is truly out of stock and the current policy is `CONTINUE`
(allow backorder); emit `CONTINUE` iff the pair is not out of stock and the
current policy is not `CONTINUE`; in particular nothing is emitted when the
current policy already matches the target. -/
theorem block_policy_decision (feed : List (String × BtiRecord)) (v : Variant)
    (bti : BtiRecord) (hm : mapGet feed v.btiPartNumber = some bti)
    (ha : v.outOfStockAction = none ∨
      v.outOfStockAction = some "Make Unavailable (Track Inventory)") :
    (Intent.setPolicy v.id "DENY" ∈ reconcileVariant feed v ↔
      ((v.inventoryQuantity ≤ 0 ∧ bti.available ≤ 0) ∧ v.inventoryPolicy = "CONTINUE"))
    ∧ (Intent.setPolicy v.id "CONTINUE" ∈ reconcileVariant feed v ↔
      (¬(v.inventoryQuantity ≤ 0 ∧ bti.available ≤ 0) ∧ v.inventoryPolicy ≠ "CONTINUE")) := by
  have hnp : ∀ pol : String, Intent.setPolicy v.id pol ∉ pricingIntents bti v :=
    fun pol => setPolicy_not_mem_pricing bti v v.id pol
  have hguard : v.outOfStockAction = some "Make Unavailable (Track Inventory)" ∨
      v.outOfStockAction = none ∨ v.outOfStockAction = some "" := by
    rcases ha with h | h
    · exact Or.inr (Or.inl h)
    · exact Or.inl h
  have hre : reconcileVariant feed v = sellabilityIntents bti v ++ pricingIntents bti v := by
    rw [reconcileVariant, hm]
  rw [hre, sellabilityIntents, if_pos hguard]
  by_cases hoos : v.inventoryQuantity ≤ 0 ∧ bti.available ≤ 0 <;>
    by_cases hpol : v.inventoryPolicy = "CONTINUE" <;>
    simp [hoos, hpol, List.mem_append, hnp "DENY", hnp "CONTINUE"]

/-- Witness for `block_policy_decision` at scenario A of the spec: out of
stock on both sides, current policy allows backorders. -/
theorem block_policy_decision_witness :
    (Intent.setPolicy (vOut "V4").id "DENY" ∈ reconcileVariant feedZero (vOut "V4") ↔
      (((vOut "V4").inventoryQuantity ≤ 0 ∧ recZero.available ≤ 0) ∧
        (vOut "V4").inventoryPolicy = "CONTINUE"))
    ∧ (Intent.setPolicy (vOut "V4").id "CONTINUE" ∈ reconcileVariant feedZero (vOut "V4") ↔
      (¬((vOut "V4").inventoryQuantity ≤ 0 ∧ recZero.available ≤ 0) ∧
        (vOut "V4").inventoryPolicy ≠ "CONTINUE")) :=
  block_policy_decision feedZero (vOut "V4") recZero (by decide) (Or.inl (by decide))

/-- C8: under the `Switch to Special Order Template` action the variant must
always stay purchasable: for a matched pair an allow-backorder (`CONTINUE`)
intent is emitted iff the current policy is not already `CONTINUE`, and
neither the local stock nor the feed stock has any effect on the decision. -/
theorem special_order_decision (m : List (String × Int)) (v : Variant) (q : Int)
    (_hm : mapGet m v.btiPartNumber = some q)
    (ha : v.outOfStockAction = some "Switch to Special Order Template") :
    (Intent.setPolicy v.id "CONTINUE" ∈ availabilityIntentsInvOnly m v ↔
      v.inventoryPolicy ≠ "CONTINUE")
    ∧ ∀ (m2 : List (String × Int)) (n : Int),
        availabilityIntentsInvOnly m2 { v with inventoryQuantity := n } =
          availabilityIntentsInvOnly m v := by
  constructor
  · by_cases hpol : v.inventoryPolicy = "CONTINUE" <;>
      simp [availabilityIntentsInvOnly, ha, hpol]
  · intro m2 n
    simp [availabilityIntentsInvOnly, ha]

/-- Witness for `special_order_decision` at a concrete blocked special-order
variant. -/
theorem special_order_decision_witness :
    (Intent.setPolicy vSpecial.id "CONTINUE" ∈ availabilityIntentsInvOnly stockMapOne vSpecial ↔
      vSpecial.inventoryPolicy ≠ "CONTINUE")
    ∧ ∀ (m2 : List (String × Int)) (n : Int),
        availabilityIntentsInvOnly m2 { vSpecial with inventoryQuantity := n } =
          availabilityIntentsInvOnly stockMapOne vSpecial :=
  special_order_decision stockMapOne vSpecial 0 (by decide) (by decide)

/-- Evaluation helper: a rational known to be an exact amount of cents renders
through `toFixed(2)` as that amount. -/
theorem toFixed2_eval {x : Rat} {c : Int} (h : x = (c : Rat) / 100) :
    toFixed2 x = renderCents c := by
  rw [h, toFixed2_intCents]

/-- C5: for a matched pair that is not excluded from price sync and has
positive feed msrp and cost, every pricing intent carries exactly the spec's
targets — with a markup `p`, price and compare-at are `msrp * (1 + p/100)`
rounded half-up to 2 decimals; without one, price is `msrp * 0.99` and
compare-at is `msrp`, each rounded to 2 decimals — and the cost target is the
feed unit cost rounded to 2 decimals; and no pricing intent exists at all when
the item is excluded or msrp or cost is non-positive.  (The markup is assumed
to be at least -100 so the computed price is non-negative; below that the
half-up reading and the renderer's away-from-zero tie-break could differ on
exact half-cents.) -/
theorem pricing_targets (feed : List (String × BtiRecord)) (v : Variant)
    (bti : BtiRecord) (hm : mapGet feed v.btiPartNumber = some bti)
    (hp : ∀ p : Int, v.priceAdjustmentPercentage = some p → -100 ≤ p) :
    ((v.excludeFromPriceSync = true ∨ bti.msrp ≤ 0 ∨ bti.cost ≤ 0) →
      ∀ pr ca co iid, Intent.setPricing v.id pr ca co iid ∉ reconcileVariant feed v)
    ∧ (∀ pr ca co iid, Intent.setPricing v.id pr ca co iid ∈ reconcileVariant feed v →
        parseDec co = some (specRound2 bti.cost)
        ∧ (match v.priceAdjustmentPercentage with
           | some pct =>
              parseDec pr = some (specRound2 (bti.msrp * (1 + (pct : Rat) / 100))) ∧ ca = pr
           | none =>
              parseDec pr = some (specRound2 (bti.msrp * (99 / 100)))
              ∧ parseDec ca = some (specRound2 bti.msrp))) := by
  have hre : reconcileVariant feed v = sellabilityIntents bti v ++ pricingIntents bti v := by
    rw [reconcileVariant, hm]
  constructor
  · intro hskip pr ca co iid hmem
    have hempty : pricingIntents bti v = [] := by
      rw [pricingIntents]
      rcases hskip with hex | hm0 | hc0
      · rw [if_pos hex]
      · by_cases hex : v.excludeFromPriceSync = true
        · rw [if_pos hex]
        · rw [if_neg hex, if_neg (fun hg => absurd hg.1 (not_lt.mpr hm0))]
      · by_cases hex : v.excludeFromPriceSync = true
        · rw [if_pos hex]
        · rw [if_neg hex, if_neg (fun hg => absurd hg.2 (not_lt.mpr hc0))]
    rw [hre, hempty, List.append_nil] at hmem
    exact setPricing_not_mem_sellability bti v _ _ _ _ _ hmem
  · intro pr ca co iid hmem
    rw [hre] at hmem
    rcases List.mem_append.mp hmem with hs | hp2
    · exact absurd hs (setPricing_not_mem_sellability bti v _ _ _ _ _)
    · cases hpct : v.priceAdjustmentPercentage with
      | none =>
          simp only [pricingIntents, hpct] at hp2
          split_ifs at hp2 with h1 h2 h3
          · cases hp2
          · rw [List.mem_singleton] at hp2
            simp only [Intent.setPricing.injEq] at hp2
            obtain ⟨-, hpr, hca, hco, -⟩ := hp2
            refine ⟨?_, ?_, ?_⟩
            · rw [hco]
              exact parseDec_toFixed2 (le_of_lt h2.2)
            · rw [hpr]
              exact parseDec_toFixed2 (mul_nonneg (le_of_lt h2.1) (by norm_num))
            · rw [hca]
              exact parseDec_toFixed2 (le_of_lt h2.1)
          · cases hp2
          · cases hp2
      | some pct =>
          simp only [pricingIntents, hpct] at hp2
          split_ifs at hp2 with h1 h2 h3
          · cases hp2
          · rw [List.mem_singleton] at hp2
            simp only [Intent.setPricing.injEq] at hp2
            obtain ⟨-, hpr, hca, hco, -⟩ := hp2
            have hnn : (0 : Rat) ≤ bti.msrp * (1 + (pct : Rat) / 100) := by
              apply mul_nonneg (le_of_lt h2.1)
              have hle : ((-100 : Int) : Rat) ≤ (pct : Rat) := by
                exact_mod_cast hp pct hpct
              push_cast at hle
              linarith
            refine ⟨?_, ?_, ?_⟩
            · rw [hco]
              exact parseDec_toFixed2 (le_of_lt h2.2)
            · rw [hpr]
              exact parseDec_toFixed2 hnn
            · rw [hca, hpr]
          · cases hp2
          · cases hp2

/-- Pricing evaluation at the concrete markup variant: `100 * 1.1` renders as
`110.00`. -/
theorem eval_markup_price :
    toFixed2 (recPriced.msrp * (1 + ((10 : Int) : Rat) / 100)) = "110.00" := by
  rw [toFixed2_eval (c := 11000) (by norm_num [recPriced])]
  decide

/-- Pricing evaluation: the feed cost `1` renders as `1.00`. -/
theorem eval_cost : toFixed2 recPriced.cost = "1.00" := by
  rw [toFixed2_eval (c := 100) (by norm_num [recPriced])]
  decide

/-- The concrete markup variant's reconciliation result. -/
theorem reconcile_vMarkup :
    reconcileVariant feedPriced vMarkup =
      [Intent.setPricing "V5" "110.00" "110.00" "1.00" "I5"] := by
  have hg : mapGet feedPriced vMarkup.btiPartNumber = some recPriced := rfl
  have hre : reconcileVariant feedPriced vMarkup =
      sellabilityIntents recPriced vMarkup ++ pricingIntents recPriced vMarkup := by
    rw [reconcileVariant, hg]
  have hsell : sellabilityIntents recPriced vMarkup = [] := by decide
  have hpct : vMarkup.priceAdjustmentPercentage = some 10 := rfl
  have hpr : pricingIntents recPriced vMarkup =
      [Intent.setPricing "V5" "110.00" "110.00" "1.00" "I5"] := by
    simp only [pricingIntents, hpct]
    rw [if_neg (by decide : ¬ (vMarkup.excludeFromPriceSync = true))]
    rw [if_pos (⟨by decide, by decide⟩ : 0 < recPriced.msrp ∧ 0 < recPriced.cost)]
    rw [eval_markup_price, eval_cost]
    rw [if_pos (Or.inl (by decide : ("110.00" : String) ≠ vMarkup.price))]
    decide
  rw [hre, hsell, hpr, List.nil_append]

/-- Witness for `pricing_targets` at scenario C of the spec: msrp 100, markup
10 percent — the emitted targets parse back to the spec's half-up values. -/
theorem pricing_targets_witness :
    parseDec "1.00" = some (specRound2 recPriced.cost)
    ∧ parseDec "110.00" = some (specRound2 (recPriced.msrp * (((10 : Int) : Rat) / 100 + 1)))
    ∧ ("110.00" : String) = "110.00" := by
  have h := (pricing_targets feedPriced vMarkup recPriced rfl
    (by intro p hp2; cases hp2; omega)).2
    "110.00" "110.00" "1.00" "I5" (by rw [reconcile_vMarkup]; exact List.mem_singleton.mpr rfl)
  refine ⟨h.1, ?_, ?_⟩
  · have h2 := h.2.1
    rw [show recPriced.msrp * (((10 : Int) : Rat) / 100 + 1) =
      recPriced.msrp * (1 + ((10 : Int) : Rat) / 100) by ring]
    exact h2
  · exact h.2.2

/-! Machinery for the idempotence of reconciliation. -/

theorem applyIntent_inv (v : Variant) (i : Intent) :
    (applyIntent v i).id = v.id
    ∧ (applyIntent v i).inventoryQuantity = v.inventoryQuantity
    ∧ (applyIntent v i).btiPartNumber = v.btiPartNumber
    ∧ (applyIntent v i).outOfStockAction = v.outOfStockAction
    ∧ (applyIntent v i).priceAdjustmentPercentage = v.priceAdjustmentPercentage
    ∧ (applyIntent v i).excludeFromPriceSync = v.excludeFromPriceSync
    ∧ (applyIntent v i).inventoryItemId = v.inventoryItemId := by
  cases i <;> simp only [applyIntent] <;> split_ifs <;> simp

theorem applyIntents_inv (l : List Intent) :
    ∀ v : Variant, (applyIntents l v).id = v.id
    ∧ (applyIntents l v).inventoryQuantity = v.inventoryQuantity
    ∧ (applyIntents l v).btiPartNumber = v.btiPartNumber
    ∧ (applyIntents l v).outOfStockAction = v.outOfStockAction
    ∧ (applyIntents l v).priceAdjustmentPercentage = v.priceAdjustmentPercentage
    ∧ (applyIntents l v).excludeFromPriceSync = v.excludeFromPriceSync
    ∧ (applyIntents l v).inventoryItemId = v.inventoryItemId := by
  induction l with
  | nil => intro v; exact ⟨rfl, rfl, rfl, rfl, rfl, rfl, rfl⟩
  | cons i t ih =>
      intro v
      have h1 := applyIntent_inv v i
      have h2 := ih (applyIntent v i)
      exact ⟨h2.1.trans h1.1, h2.2.1.trans h1.2.1, h2.2.2.1.trans h1.2.2.1,
        h2.2.2.2.1.trans h1.2.2.2.1, h2.2.2.2.2.1.trans h1.2.2.2.2.1,
        h2.2.2.2.2.2.1.trans h1.2.2.2.2.2.1, h2.2.2.2.2.2.2.trans h1.2.2.2.2.2.2⟩

theorem applyIntents_policy_shaped :
    ∀ l : List Intent, (∀ i ∈ l, ∃ a b, i = Intent.setPolicy a b) →
      ∀ w : Variant, (applyIntents l w).price = w.price
        ∧ (applyIntents l w).compareAtPrice = w.compareAtPrice
        ∧ (applyIntents l w).unitCostAmount = w.unitCostAmount := by
  intro l
  induction l with
  | nil => intro _ w; exact ⟨rfl, rfl, rfl⟩
  | cons i t ih =>
      intro hl w
      obtain ⟨a, b, hi⟩ := hl i (List.mem_cons_self i t)
      have ht := ih (fun j hj => hl j (List.mem_cons_of_mem i hj)) (applyIntent w i)
      have hstep : (applyIntent w i).price = w.price
          ∧ (applyIntent w i).compareAtPrice = w.compareAtPrice
          ∧ (applyIntent w i).unitCostAmount = w.unitCostAmount := by
        subst hi
        simp only [applyIntent]
        split_ifs <;> simp
      exact ⟨ht.1.trans hstep.1, ht.2.1.trans hstep.2.1, ht.2.2.trans hstep.2.2⟩

theorem applyIntents_pricing_shaped :
    ∀ l : List Intent, (∀ i ∈ l, ∃ a b c d e, i = Intent.setPricing a b c d e) →
      ∀ w : Variant, (applyIntents l w).inventoryPolicy = w.inventoryPolicy := by
  intro l
  induction l with
  | nil => intro _ w; rfl
  | cons i t ih =>
      intro hl w
      obtain ⟨a, b, c, d, e, hi⟩ := hl i (List.mem_cons_self i t)
      have ht := ih (fun j hj => hl j (List.mem_cons_of_mem i hj)) (applyIntent w i)
      have hstep : (applyIntent w i).inventoryPolicy = w.inventoryPolicy := by
        subst hi
        simp only [applyIntent]
        split_ifs <;> simp
      exact ht.trans hstep

theorem sellabilityIntents_congr (bti : BtiRecord) (w w2 : Variant)
    (hid : w.id = w2.id) (hq : w.inventoryQuantity = w2.inventoryQuantity)
    (hoa : w.outOfStockAction = w2.outOfStockAction)
    (hpol : w.inventoryPolicy = w2.inventoryPolicy) :
    sellabilityIntents bti w = sellabilityIntents bti w2 := by
  rw [sellabilityIntents, sellabilityIntents, hid, hq, hoa, hpol]

theorem pricingIntents_congr (bti : BtiRecord) (w w2 : Variant)
    (hid : w.id = w2.id) (hpr : w.price = w2.price)
    (hca : w.compareAtPrice = w2.compareAtPrice)
    (huc : w.unitCostAmount = w2.unitCostAmount)
    (hiid : w.inventoryItemId = w2.inventoryItemId)
    (hpct : w.priceAdjustmentPercentage = w2.priceAdjustmentPercentage)
    (hex : w.excludeFromPriceSync = w2.excludeFromPriceSync) :
    pricingIntents bti w = pricingIntents bti w2 := by
  rw [pricingIntents, pricingIntents, hid, hpr, hca, huc, hiid, hpct, hex]

theorem sellability_apply_empty (bti : BtiRecord) (v : Variant) :
    sellabilityIntents bti (applyIntents (sellabilityIntents bti v) v) = [] := by
  by_cases hg : v.outOfStockAction = some "Make Unavailable (Track Inventory)" ∨
      v.outOfStockAction = none ∨ v.outOfStockAction = some ""
  · by_cases hoos : v.inventoryQuantity ≤ 0 ∧ bti.available ≤ 0
    · by_cases hpol : v.inventoryPolicy = "CONTINUE"
      · have hsell : sellabilityIntents bti v = [Intent.setPolicy v.id "DENY"] := by
          rw [sellabilityIntents, if_pos hg, if_pos hoos, if_pos hpol]
        have happ : applyIntents [Intent.setPolicy v.id "DENY"] v =
            { v with inventoryPolicy := "DENY" } := by
          show applyIntent v (Intent.setPolicy v.id "DENY") = _
          simp [applyIntent]
        rw [hsell, happ, sellabilityIntents, if_pos hg, if_pos hoos,
          if_neg (by decide : ¬("DENY" : String) = "CONTINUE")]
      · have hsell : sellabilityIntents bti v = [] := by
          rw [sellabilityIntents, if_pos hg, if_pos hoos, if_neg hpol]
        rw [hsell]
        exact hsell
    · by_cases hpol : v.inventoryPolicy = "CONTINUE"
      · have hsell : sellabilityIntents bti v = [] := by
          rw [sellabilityIntents, if_pos hg, if_neg hoos, if_pos hpol]
        rw [hsell]
        exact hsell
      · have hsell : sellabilityIntents bti v = [Intent.setPolicy v.id "CONTINUE"] := by
          rw [sellabilityIntents, if_pos hg, if_neg hoos, if_neg hpol]
        have happ : applyIntents [Intent.setPolicy v.id "CONTINUE"] v =
            { v with inventoryPolicy := "CONTINUE" } := by
          show applyIntent v (Intent.setPolicy v.id "CONTINUE") = _
          simp [applyIntent]
        rw [hsell, happ, sellabilityIntents, if_pos hg, if_neg hoos, if_pos rfl]
  · have hsell : sellabilityIntents bti v = [] := by
      rw [sellabilityIntents, if_neg hg]
    rw [hsell]
    exact hsell

theorem pricing_apply_empty (bti : BtiRecord) (v : Variant) :
    pricingIntents bti (applyIntents (pricingIntents bti v) v) = [] := by
  by_cases hex : v.excludeFromPriceSync = true
  · have hp : pricingIntents bti v = [] := by
      rw [pricingIntents, if_pos hex]
    rw [hp]
    exact hp
  · by_cases hgate : 0 < bti.msrp ∧ 0 < bti.cost
    · cases hpct : v.priceAdjustmentPercentage with
      | none =>
          by_cases hcmp : toFixed2 (bti.msrp * (99 / 100)) ≠ v.price ∨
              some (toFixed2 bti.msrp) ≠ v.compareAtPrice ∨
              some (toFixed2 bti.cost) ≠ Option.map normalizeDec v.unitCostAmount
          · have hp : pricingIntents bti v = [Intent.setPricing v.id
                (toFixed2 (bti.msrp * (99 / 100))) (toFixed2 bti.msrp)
                (toFixed2 bti.cost) v.inventoryItemId] := by
              simp only [pricingIntents, hpct]
              rw [if_neg hex, if_pos hgate, if_pos hcmp]
            have happ : applyIntents [Intent.setPricing v.id
                (toFixed2 (bti.msrp * (99 / 100))) (toFixed2 bti.msrp)
                (toFixed2 bti.cost) v.inventoryItemId] v =
                { v with
                  price := toFixed2 (bti.msrp * (99 / 100)),
                  compareAtPrice := some (toFixed2 bti.msrp),
                  unitCostAmount := some (toFixed2 bti.cost) } := by
              simp [applyIntents, applyIntent]
            rw [hp, happ]
            simp only [pricingIntents, hpct]
            rw [if_neg hex, if_pos hgate,
              if_neg (by
                push_neg
                refine ⟨rfl, rfl, ?_⟩
                rw [Option.map_some', normalizeDec_toFixed2])]
          · have hp : pricingIntents bti v = [] := by
              simp only [pricingIntents, hpct]
              rw [if_neg hex, if_pos hgate, if_neg hcmp]
            rw [hp]
            exact hp
      | some pct =>
          by_cases hcmp : toFixed2 (bti.msrp * (1 + (pct : Rat) / 100)) ≠ v.price ∨
              some (toFixed2 (bti.msrp * (1 + (pct : Rat) / 100))) ≠ v.compareAtPrice ∨
              some (toFixed2 bti.cost) ≠ Option.map normalizeDec v.unitCostAmount
          · have hp : pricingIntents bti v = [Intent.setPricing v.id
                (toFixed2 (bti.msrp * (1 + (pct : Rat) / 100)))
                (toFixed2 (bti.msrp * (1 + (pct : Rat) / 100)))
                (toFixed2 bti.cost) v.inventoryItemId] := by
              simp only [pricingIntents, hpct]
              rw [if_neg hex, if_pos hgate, if_pos hcmp]
            have happ : applyIntents [Intent.setPricing v.id
                (toFixed2 (bti.msrp * (1 + (pct : Rat) / 100)))
                (toFixed2 (bti.msrp * (1 + (pct : Rat) / 100)))
                (toFixed2 bti.cost) v.inventoryItemId] v =
                { v with
                  price := toFixed2 (bti.msrp * (1 + (pct : Rat) / 100)),
                  compareAtPrice := some (toFixed2 (bti.msrp * (1 + (pct : Rat) / 100))),
                  unitCostAmount := some (toFixed2 bti.cost) } := by
              simp [applyIntents, applyIntent]
            rw [hp, happ]
            simp only [pricingIntents, hpct]
            rw [if_neg hex, if_pos hgate,
              if_neg (by
                push_neg
                refine ⟨rfl, rfl, ?_⟩
                rw [Option.map_some', normalizeDec_toFixed2])]
          · have hp : pricingIntents bti v = [] := by
              simp only [pricingIntents, hpct]
              rw [if_neg hex, if_pos hgate, if_neg hcmp]
            rw [hp]
            exact hp
    · have hp : pricingIntents bti v = [] := by
        rw [pricingIntents, if_neg hex, if_neg hgate]
      rw [hp]
      exact hp

theorem reconcileVariant_apply_empty (feed : List (String × BtiRecord)) (v : Variant) :
    reconcileVariant feed (applyIntents (reconcileVariant feed v) v) = [] := by
  cases hm : mapGet feed v.btiPartNumber with
  | none =>
      have h0 : reconcileVariant feed v = [] := by rw [reconcileVariant, hm]
      rw [h0]
      exact h0
  | some bti =>
      have hre : reconcileVariant feed v = sellabilityIntents bti v ++ pricingIntents bti v := by
        rw [reconcileVariant, hm]
      have hsplit : applyIntents (reconcileVariant feed v) v =
          applyIntents (pricingIntents bti v) (applyIntents (sellabilityIntents bti v) v) := by
        rw [hre, applyIntents, List.foldl_append]
        rfl
      rw [hsplit]
      have hvainv := applyIntents_inv (sellabilityIntents bti v) v
      have hv2inv := applyIntents_inv (pricingIntents bti v)
        (applyIntents (sellabilityIntents bti v) v)
      have hsellshape : ∀ i ∈ sellabilityIntents bti v, ∃ a b, i = Intent.setPolicy a b := by
        intro i hi
        rcases sellability_shape bti v i hi with h | h <;> exact ⟨_, _, h⟩
      have hprshape : ∀ i ∈ pricingIntents bti v,
          ∃ a b c d e, i = Intent.setPricing a b c d e := by
        intro i hi
        obtain ⟨pr, ca, co, h⟩ := pricing_shape bti v i hi
        exact ⟨_, _, _, _, _, h⟩
      have hbp : (applyIntents (pricingIntents bti v)
          (applyIntents (sellabilityIntents bti v) v)).btiPartNumber = v.btiPartNumber :=
        hv2inv.2.2.1.trans hvainv.2.2.1
      have hm2 : mapGet feed (applyIntents (pricingIntents bti v)
          (applyIntents (sellabilityIntents bti v) v)).btiPartNumber = some bti := by
        rw [hbp]
        exact hm
      have hs2 : sellabilityIntents bti (applyIntents (pricingIntents bti v)
          (applyIntents (sellabilityIntents bti v) v)) =
          sellabilityIntents bti (applyIntents (sellabilityIntents bti v) v) := by
        apply sellabilityIntents_congr
        · exact hv2inv.1
        · exact hv2inv.2.1
        · exact hv2inv.2.2.2.1
        · exact applyIntents_pricing_shaped _ hprshape _
      have hpva : pricingIntents bti (applyIntents (sellabilityIntents bti v) v) =
          pricingIntents bti v := by
        apply pricingIntents_congr
        · exact hvainv.1
        · exact (applyIntents_policy_shaped _ hsellshape v).1
        · exact (applyIntents_policy_shaped _ hsellshape v).2.1
        · exact (applyIntents_policy_shaped _ hsellshape v).2.2
        · exact hvainv.2.2.2.2.2.2
        · exact hvainv.2.2.2.2.1
        · exact hvainv.2.2.2.2.2.1
      have hp2 : pricingIntents bti (applyIntents (pricingIntents bti v)
          (applyIntents (sellabilityIntents bti v) v)) = [] := by
        have heq : pricingIntents bti v =
            pricingIntents bti (applyIntents (sellabilityIntents bti v) v) := hpva.symm
        rw [show applyIntents (pricingIntents bti v)
            (applyIntents (sellabilityIntents bti v) v) =
            applyIntents (pricingIntents bti (applyIntents (sellabilityIntents bti v) v))
              (applyIntents (sellabilityIntents bti v) v) from by rw [← heq]]
        exact pricing_apply_empty bti (applyIntents (sellabilityIntents bti v) v)
      have hre2 : reconcileVariant feed (applyIntents (pricingIntents bti v)
          (applyIntents (sellabilityIntents bti v) v)) =
          sellabilityIntents bti (applyIntents (pricingIntents bti v)
            (applyIntents (sellabilityIntents bti v) v)) ++
          pricingIntents bti (applyIntents (pricingIntents bti v)
            (applyIntents (sellabilityIntents bti v) v)) := by
        rw [reconcileVariant, hm2]
      rw [hre2, hs2, sellability_apply_empty bti v, hp2]
      rfl

theorem reconcileVariant_targets (feed : List (String × BtiRecord)) (w : Variant) :
    ∀ i ∈ reconcileVariant feed w, intentTarget i = w.id := by
  intro i hi
  rw [reconcileVariant] at hi
  cases hm : mapGet feed w.btiPartNumber with
  | none => rw [hm] at hi; cases hi
  | some bti =>
      rw [hm] at hi
      rcases List.mem_append.mp hi with h | h
      · rcases sellability_shape bti w i h with he | he <;> (subst he; rfl)
      · obtain ⟨pr, ca, co, he⟩ := pricing_shape bti w i h
        subst he
        rfl

theorem applyIntents_foreign :
    ∀ l : List Intent, ∀ w : Variant, (∀ i ∈ l, intentTarget i ≠ w.id) →
      applyIntents l w = w := by
  intro l
  induction l with
  | nil => intro w _; rfl
  | cons i t ih =>
      intro w hl
      have hne := hl i (List.mem_cons_self i t)
      have hstep : applyIntent w i = w := by
        cases i with
        | setPolicy a b =>
            simp only [applyIntent]
            rw [if_neg (show ¬(a = w.id) from hne)]
        | setPricing a b c d e =>
            simp only [applyIntent]
            rw [if_neg (show ¬(a = w.id) from hne)]
      show applyIntents t (applyIntent w i) = w
      rw [hstep]
      exact ih w (fun j hj => hl j (List.mem_cons_of_mem i hj))

theorem applyIntents_append (l1 l2 : List Intent) (w : Variant) :
    applyIntents (l1 ++ l2) w = applyIntents l2 (applyIntents l1 w) := by
  rw [applyIntents, applyIntents, applyIntents, List.foldl_append]

/-- C6 (amended): reconciliation is a pure function of the snapshot, so two
runs on the same input produce the same intents; the pricing comparison is a
raw string comparison of the rendered targets against the stored values (the
current cost alone being normalised through `parseFloat(...).toFixed(2)`),
which can emit an intent whose postcondition already holds numerically; but
applying a run's intents to the catalog and reconciling again produces no
intents at all. -/
theorem reconcile_apply_idem (feed : List (String × BtiRecord)) (vs : List Variant)
    (h : (vs.map Variant.id).Nodup) :
    reconcile feed (vs.map (fun v => applyIntents (reconcile feed vs) v)) = [] := by
  rw [reconcile, List.flatten_eq_nil_iff]
  intro l hl
  rw [List.map_map] at hl
  obtain ⟨v, hv, rfl⟩ := List.mem_map.mp hl
  show reconcileVariant feed (applyIntents (reconcile feed vs) v) = []
  obtain ⟨s, t, rfl⟩ := List.append_of_mem hv
  have hids : v.id ∉ s.map Variant.id ∧ v.id ∉ t.map Variant.id := by
    rw [List.map_append, List.map_cons, List.nodup_append] at h
    obtain ⟨h1, h2, h3⟩ := h
    exact ⟨fun hmem => h3 hmem (List.mem_cons_self _ _),
      (List.nodup_cons.mp h2).1⟩
  have hred : reconcile feed (s ++ v :: t) =
      (s.map (reconcileVariant feed)).flatten ++
        (reconcileVariant feed v ++ (t.map (reconcileVariant feed)).flatten) := by
    rw [reconcile, List.map_append, List.map_cons, List.flatten_append, List.flatten_cons]
  have hforeignS : ∀ i ∈ (s.map (reconcileVariant feed)).flatten, intentTarget i ≠ v.id := by
    intro i hi hit
    obtain ⟨l2, hl2, hil⟩ := List.mem_flatten.mp hi
    obtain ⟨w, hw, rfl⟩ := List.mem_map.mp hl2
    have := reconcileVariant_targets feed w i hil
    exact hids.1 (List.mem_map.mpr ⟨w, hw, by rw [← this, hit]⟩)
  have hforeignT : ∀ i ∈ (t.map (reconcileVariant feed)).flatten, intentTarget i ≠ v.id := by
    intro i hi hit
    obtain ⟨l2, hl2, hil⟩ := List.mem_flatten.mp hi
    obtain ⟨w, hw, rfl⟩ := List.mem_map.mp hl2
    have := reconcileVariant_targets feed w i hil
    exact hids.2 (List.mem_map.mpr ⟨w, hw, by rw [← this, hit]⟩)
  have happly : applyIntents (reconcile feed (s ++ v :: t)) v =
      applyIntents (reconcileVariant feed v) v := by
    rw [hred, applyIntents_append, applyIntents_foreign _ v hforeignS, applyIntents_append,
      applyIntents_foreign _ _ (by
        intro i hi
        rw [(applyIntents_inv (reconcileVariant feed v) v).1]
        exact hforeignT i hi)]
  rw [happly]
  exact reconcileVariant_apply_empty feed v

/-- Witness for `reconcile_apply_idem` at a concrete one-variant snapshot. -/
theorem reconcile_apply_idem_witness :
    reconcile feedStocked ([vRaw].map (fun v => applyIntents (reconcile feedStocked [vRaw]) v)) = [] :=
  reconcile_apply_idem feedStocked [vRaw] (by simp)

/-- Pricing evaluation: `100 * 0.99` renders as `99.00`. -/
theorem eval_discounted : toFixed2 (recStocked.msrp * (99 / 100)) = "99.00" := by
  rw [toFixed2_eval (c := 9900) (by norm_num [recStocked])]
  decide

/-- Pricing evaluation: the feed msrp `100` renders as `100.00`. -/
theorem eval_msrp : toFixed2 recStocked.msrp = "100.00" := by
  rw [toFixed2_eval (c := 10000) (by norm_num [recStocked])]
  decide

/-- Pricing evaluation: the stocked feed record's cost `1` renders as `1.00`. -/
theorem eval_cost_stocked : toFixed2 recStocked.cost = "1.00" := by
  rw [toFixed2_eval (c := 100) (by norm_num [recStocked])]
  decide

/-- The concrete raw-string variant's reconciliation result: a pricing intent
is emitted although the stored price differs from the target only in its
rendering. -/
theorem reconcile_vRaw :
    reconcileVariant feedStocked vRaw = [Intent.setPricing "V6" "99.00" "100.00" "1.00" "I6"] := by
  have hg : mapGet feedStocked vRaw.btiPartNumber = some recStocked := rfl
  have hre : reconcileVariant feedStocked vRaw =
      sellabilityIntents recStocked vRaw ++ pricingIntents recStocked vRaw := by
    rw [reconcileVariant, hg]
  have hsell : sellabilityIntents recStocked vRaw = [] := by decide
  have hpct : vRaw.priceAdjustmentPercentage = none := rfl
  have hpr2 : pricingIntents recStocked vRaw =
      [Intent.setPricing "V6" "99.00" "100.00" "1.00" "I6"] := by
    simp only [pricingIntents, hpct]
    rw [if_neg (by decide : ¬ (vRaw.excludeFromPriceSync = true))]
    rw [if_pos (⟨by decide, by decide⟩ : 0 < recStocked.msrp ∧ 0 < recStocked.cost)]
    rw [eval_discounted, eval_msrp, eval_cost_stocked]
    rw [if_pos (Or.inl (by decide : ("99.00" : String) ≠ vRaw.price))]
    decide
  rw [hre, hsell, hpr2, List.nil_append]

/-- Concrete parse: `parseFloat("99.0") = 99`. -/
theorem parseDec_raw : parseDec "99.0" = some 99 := by
  have h0 : parseDec "99.0" =
      some (((99 : Nat) : Rat) + ((0 : Nat) : Rat) / (10 : Rat) ^ (1 : Nat)) := rfl
  rw [h0]
  norm_num

/-- Concrete rendering: `(99).toFixed(2) = "99.00"`. -/
theorem eval_tf99 : toFixed2 (99 : Rat) = "99.00" := by
  rw [toFixed2_eval (c := 9900) (by norm_num)]
  decide

/-- Concrete normalisation of the non-canonical stored price. -/
theorem normalize_raw : normalizeDec "99.0" = "99.00" := by
  rw [normalizeDec, parseDec_raw]
  show toFixed2 (99 : Rat) = "99.00"
  exact eval_tf99

/-- Concrete normalisation of the canonical rendering of 99. -/
theorem normalize_9900 : normalizeDec "99.00" = "99.00" := by
  have h := normalizeDec_toFixed2 (99 : Rat)
  rw [eval_tf99] at h
  exact h

/-- C6 counterexample: the code's pricing-change test is not the claimed
string-normalised 2-decimal comparison — at a stored price of `"99.0"` with
target `"99.00"` an intent is emitted although every target equals the
current value under that normalised comparison. -/
theorem normalized_comparison_counterexample :
    ¬ (∀ (feed : List (String × BtiRecord)) (v : Variant) (pr ca co iid : String),
        Intent.setPricing v.id pr ca co iid ∈ reconcileVariant feed v →
        ¬ (normSameStr v.price pr ∧ normSameOpt v.compareAtPrice ca ∧
           normSameOpt v.unitCostAmount co)) := by
  intro h
  apply h feedStocked vRaw "99.00" "100.00" "1.00" "I6"
    (by rw [reconcile_vRaw]; exact List.mem_singleton.mpr rfl)
  refine ⟨?_, ?_, ?_⟩
  · show normalizeDec "99.0" = normalizeDec "99.00"
    rw [normalize_raw, normalize_9900]
  · rfl
  · rfl

/-! Executor trace lemmas. -/

theorem isWriteEv_intentEv (i : Intent) : isWriteEv (intentEv i) = true := by
  cases i <;> rfl

theorem writeEvs_map_intentEv (l : List Intent) : writeEvs (l.map intentEv) = l.map intentEv := by
  rw [writeEvs, List.filter_eq_self]
  intro a ha
  obtain ⟨i, _, rfl⟩ := List.mem_map.mp ha
  exact isWriteEv_intentEv i

theorem sleep_not_mem_map (ms : Nat) (l : List Intent) : Ev.sleepMs ms ∉ l.map intentEv := by
  intro h
  obtain ⟨i, _, he⟩ := List.mem_map.mp h
  cases i <;> simp [intentEv] at he

theorem reconcile_cons (feed : List (String × BtiRecord)) (v : Variant) (rest : List Variant) :
    reconcile feed (v :: rest) = reconcileVariant feed v ++ reconcile feed rest := by
  rw [reconcile, List.map_cons, List.flatten_cons, reconcile]

theorem execIntents_ok (oracle : Nat → Bool) :
    ∀ (l : List Intent) (k : Nat) (evs : List Ev) (n : Nat),
      execIntents oracle l k = Except.ok (evs, n) →
      evs = l.map intentEv ∧ n = k + l.length ∧ ∀ j, j < l.length → oracle (k + j) = true := by
  intro l
  induction l with
  | nil =>
      intro k evs n h
      simp only [execIntents, Except.ok.injEq, Prod.mk.injEq] at h
      refine ⟨h.1.symm, ?_, ?_⟩
      · simp [← h.2]
      · intro j hj
        simp at hj
  | cons i rest ih =>
      intro k evs n h
      rw [execIntents] at h
      cases hok : oracle k with
      | false =>
          rw [hok] at h
          simp at h
      | true =>
          rw [hok] at h
          simp only [if_true] at h
          cases hrec : execIntents oracle rest (k + 1) with
          | ok p =>
              obtain ⟨evs2, n2⟩ := p
              rw [hrec] at h
              simp only [Except.ok.injEq, Prod.mk.injEq] at h
              obtain ⟨h1, h2⟩ := h
              obtain ⟨he, hn, hall⟩ := ih (k + 1) evs2 n2 hrec
              refine ⟨?_, ?_, ?_⟩
              · rw [← h1, he, List.map_cons]
              · rw [← h2, hn, List.length_cons]
                omega
              · intro j hj
                cases j with
                | zero => simpa using hok
                | succ j2 =>
                    have := hall j2 (by simpa [List.length_cons] using hj)
                    rw [show k + (j2 + 1) = k + 1 + j2 by omega]
                    exact this
          | error evs2 =>
              rw [hrec] at h
              simp at h

theorem execIntents_err (oracle : Nat → Bool) :
    ∀ (l : List Intent) (k : Nat) (evs : List Ev),
      execIntents oracle l k = Except.error evs →
      ∃ m, m < l.length ∧ evs = (l.take (m + 1)).map intentEv ∧ oracle (k + m) = false ∧
        ∀ j, j < m → oracle (k + j) = true := by
  intro l
  induction l with
  | nil =>
      intro k evs h
      simp [execIntents] at h
  | cons i rest ih =>
      intro k evs h
      rw [execIntents] at h
      cases hok : oracle k with
      | false =>
          rw [hok] at h
          simp only [Bool.false_eq_true, if_false, Except.error.injEq] at h
          refine ⟨0, by simp, ?_, by simpa using hok, fun j hj => absurd hj (by omega)⟩
          rw [← h]
          simp
      | true =>
          rw [hok] at h
          simp only [if_true] at h
          cases hrec : execIntents oracle rest (k + 1) with
          | ok p =>
              rw [hrec] at h
              simp at h
          | error evs2 =>
              rw [hrec] at h
              simp only [Except.error.injEq] at h
              obtain ⟨m, hm, he, hfail, hall⟩ := ih (k + 1) evs2 hrec
              refine ⟨m + 1, ?_, ?_, ?_, ?_⟩
              · simpa [List.length_cons] using Nat.succ_lt_succ hm
              · rw [← h, he, List.take_succ_cons, List.map_cons]
              · rw [show k + (m + 1) = k + 1 + m by omega]
                exact hfail
              · intro j hj
                cases j with
                | zero => simpa using hok
                | succ j2 =>
                    have := hall j2 (by omega)
                    rw [show k + (j2 + 1) = k + 1 + j2 by omega]
                    exact this

theorem execAll_spec (feed : List (String × BtiRecord)) (oracle : Nat → Bool) :
    ∀ (vs : List Variant) (k : Nat),
      ((execAll feed oracle vs k).1 = 200 ∨ (execAll feed oracle vs k).1 = 500)
      ∧ (∀ ms, Ev.sleepMs ms ∈ (execAll feed oracle vs k).2 → ms = 550)
      ∧ ∃ W, writeEvs (execAll feed oracle vs k).2 = ((reconcile feed vs).take W).map intentEv
          ∧ W ≤ (reconcile feed vs).length
          ∧ numWrites (execAll feed oracle vs k).2 = W
          ∧ ((execAll feed oracle vs k).1 = 500 ↔ 0 < W ∧ oracle (k + W - 1) = false)
          ∧ (∀ j, j + 1 < W → oracle (k + j) = true) := by
  intro vs
  induction vs with
  | nil =>
      intro k
      refine ⟨Or.inl rfl, ?_, 0, rfl, by simp, rfl, ?_, ?_⟩
      · intro ms hms
        simp [execAll] at hms
      · simp [execAll]
      · intro j hj
        omega
  | cons v rest ih =>
      intro k
      cases hei : execIntents oracle (reconcileVariant feed v) k with
      | error evs =>
          have hx : execAll feed oracle (v :: rest) k = (500, evs) := by
            simp only [execAll, execVariant, hei]
          obtain ⟨m, hm, he, hfail, hall⟩ := execIntents_err oracle _ k evs hei
          rw [hx]
          refine ⟨Or.inr rfl, ?_, m + 1, ?_, ?_, ?_, ?_, ?_⟩
          · intro ms hms
            rw [he] at hms
            exact absurd hms (sleep_not_mem_map ms _)
          · show writeEvs evs = _
            rw [he, writeEvs_map_intentEv, reconcile_cons,
              List.take_append_of_le_length (by omega)]
          · rw [reconcile_cons, List.length_append]
            omega
          · show numWrites evs = m + 1
            rw [numWrites, he, writeEvs_map_intentEv, List.length_map, List.length_take]
            omega
          · constructor
            · intro _
              refine ⟨by omega, ?_⟩
              rw [show k + (m + 1) - 1 = k + m by omega]
              exact hfail
            · intro _
              rfl
          · intro j hj
            exact hall j (by omega)
      | ok p =>
          obtain ⟨evs, n⟩ := p
          obtain ⟨he, hn, hall⟩ := execIntents_ok oracle _ k evs n hei
          by_cases hnil : evs = []
          · have hx : execAll feed oracle (v :: rest) k = execAll feed oracle rest n := by
              simp only [execAll, execVariant, hei]
              rw [if_pos hnil]
              simp
            have hl1 : reconcileVariant feed v = [] := by
              rw [hnil] at he
              exact (List.map_eq_nil_iff.mp he.symm)
            obtain ⟨hst, hsl, W2, hw, hwle, hnum, hiff, hpre⟩ := ih n
            rw [hx]
            have hrc : reconcile feed (v :: rest) = reconcile feed rest := by
              rw [reconcile_cons, hl1, List.nil_append]
            have hkn : n = k := by
              rw [hn, hl1]
              rfl
            refine ⟨hst, hsl, W2, ?_, ?_, hnum, ?_, ?_⟩
            · rw [hrc]
              exact hw
            · rw [hrc]
              exact hwle
            · rw [← hkn]
              exact hiff
            · intro j hj
              have := hpre j hj
              rw [hkn] at this
              exact this
          · have hx : execAll feed oracle (v :: rest) k =
                ((execAll feed oracle rest n).1,
                  (evs ++ [Ev.sleepMs 550]) ++ (execAll feed oracle rest n).2) := by
              simp only [execAll, execVariant, hei]
              rw [if_neg hnil]
            obtain ⟨hst, hsl, W2, hw, hwle, hnum, hiff, hpre⟩ := ih n
            rw [hx]
            have h1 : List.filter isWriteEv evs = evs := by
              rw [he]
              exact writeEvs_map_intentEv _
            have hww : writeEvs ((evs ++ [Ev.sleepMs 550]) ++ (execAll feed oracle rest n).2) =
                ((reconcile feed (v :: rest)).take
                  ((reconcileVariant feed v).length + W2)).map intentEv := by
              rw [writeEvs, List.filter_append, List.filter_append, h1]
              rw [show List.filter isWriteEv [Ev.sleepMs 550] = [] from rfl, List.append_nil]
              rw [show List.filter isWriteEv (execAll feed oracle rest n).2 =
                writeEvs (execAll feed oracle rest n).2 from rfl, hw]
              rw [he, reconcile_cons]
              rw [show ((reconcileVariant feed v).length + W2) =
                ((reconcileVariant feed v).map intentEv).length + W2 by rw [List.length_map]]
              rw [List.length_map, List.take_append, List.map_append]
            refine ⟨hst, ?_, (reconcileVariant feed v).length + W2, hww, ?_, ?_, ?_, ?_⟩
            · intro ms hms
              rcases List.mem_append.mp hms with hms2 | hms2
              · rcases List.mem_append.mp hms2 with hms3 | hms3
                · rw [he] at hms3
                  exact absurd hms3 (sleep_not_mem_map ms _)
                · simpa using hms3
              · exact hsl ms hms2
            · rw [reconcile_cons, List.length_append]
              omega
            · rw [numWrites, hww, List.length_map, List.length_take]
              rw [reconcile_cons, List.length_append]
              omega
            · by_cases hW2 : W2 = 0
              · subst hW2
                have hr200 : (execAll feed oracle rest n).1 ≠ 500 := by
                  intro hcontra
                  exact absurd (hiff.mp hcontra) (by simp)
                constructor
                · intro hcontra
                  exact absurd hcontra hr200
                · rintro ⟨hpos, hfail⟩
                  have hlen : 0 < (reconcileVariant feed v).length := by simpa using hpos
                  have htrue := hall ((reconcileVariant feed v).length - 1) (by omega)
                  rw [show k + ((reconcileVariant feed v).length + 0) - 1 =
                    k + ((reconcileVariant feed v).length - 1) by omega] at hfail
                  rw [htrue] at hfail
                  cases hfail
              · have harg : k + ((reconcileVariant feed v).length + W2) - 1 = n + W2 - 1 := by
                  rw [hn]
                  omega
                rw [harg]
                constructor
                · intro h5
                  exact ⟨by omega, (hiff.mp h5).2⟩
                · rintro ⟨hpos, hfail⟩
                  exact hiff.mpr ⟨by omega, hfail⟩
            · intro j hj
              by_cases hjl : j < (reconcileVariant feed v).length
              · exact hall j hjl
              · have hj2 : (j - (reconcileVariant feed v).length) + 1 < W2 := by omega
                have := hpre (j - (reconcileVariant feed v).length) hj2
                rw [hn] at this
                rw [show k + j = k + (reconcileVariant feed v).length +
                  (j - (reconcileVariant feed v).length) by omega]
                exact this

theorem execIntents_all_ok (oracle : Nat → Bool) (h : ∀ j, oracle j = true) :
    ∀ (l : List Intent) (k : Nat),
      execIntents oracle l k = Except.ok (l.map intentEv, k + l.length) := by
  intro l
  induction l with
  | nil =>
      intro k
      simp [execIntents]
  | cons i rest ih =>
      intro k
      rw [execIntents, h k, if_pos rfl, ih (k + 1)]
      simp [List.length_cons]
      omega

theorem successTrace_cons (feed : List (String × BtiRecord)) (v : Variant)
    (rest : List Variant) :
    successTrace feed (v :: rest) =
      (if reconcileVariant feed v = [] then []
        else (reconcileVariant feed v).map intentEv ++ [Ev.sleepMs 550]) ++
        successTrace feed rest := by
  simp only [successTrace, List.map_cons, List.flatten_cons]

theorem execAll_success (feed : List (String × BtiRecord)) (oracle : Nat → Bool)
    (h : ∀ j, oracle j = true) :
    ∀ (vs : List Variant) (k : Nat), execAll feed oracle vs k = (200, successTrace feed vs) := by
  intro vs
  induction vs with
  | nil => intro k; rfl
  | cons v rest ih =>
      intro k
      have hok := execIntents_all_ok oracle h (reconcileVariant feed v) k
      by_cases hl : reconcileVariant feed v = []
      · have hnil : (reconcileVariant feed v).map intentEv = [] := by rw [hl]; rfl
        have hx : execAll feed oracle (v :: rest) k =
            execAll feed oracle rest (k + (reconcileVariant feed v).length) := by
          simp only [execAll, execVariant, hok]
          rw [if_pos hnil]
          simp
        rw [hx, ih, successTrace_cons, if_pos hl, List.nil_append]
      · have hnil : (reconcileVariant feed v).map intentEv ≠ [] := by
          simpa [List.map_eq_nil_iff] using hl
        have hx : execAll feed oracle (v :: rest) k =
            ((execAll feed oracle rest (k + (reconcileVariant feed v).length)).1,
              ((reconcileVariant feed v).map intentEv ++ [Ev.sleepMs 550]) ++
                (execAll feed oracle rest (k + (reconcileVariant feed v).length)).2) := by
          simp only [execAll, execVariant, hok]
          rw [if_neg hnil]
        rw [hx, ih, successTrace_cons, if_neg hl]

theorem numSleeps_append (a b : List Ev) : numSleeps (a ++ b) = numSleeps a + numSleeps b := by
  simp [numSleeps, List.filter_append]

theorem numSleeps_map_intentEv (l : List Intent) : numSleeps (l.map intentEv) = 0 := by
  rw [numSleeps, List.length_eq_zero]
  rw [List.filter_eq_nil_iff]
  intro a ha
  obtain ⟨i, _, rfl⟩ := List.mem_map.mp ha
  simp [isWriteEv_intentEv]

/-- Pricing evaluation: `100 * 0.99` on the priced feed record. -/
theorem eval_discounted_priced : toFixed2 (recPriced.msrp * (99 / 100)) = "99.00" := by
  rw [toFixed2_eval (c := 9900) (by norm_num [recPriced])]
  decide

/-- Pricing evaluation: the priced feed record's msrp renders as `100.00`. -/
theorem eval_msrp_priced : toFixed2 recPriced.msrp = "100.00" := by
  rw [toFixed2_eval (c := 10000) (by norm_num [recPriced])]
  decide

/-- The concrete two-update variant's reconciliation result: one availability
intent followed by one pricing intent. -/
theorem reconcile_vBoth :
    reconcileVariant feedPriced vBoth =
      [Intent.setPolicy "V7" "DENY",
        Intent.setPricing "V7" "99.00" "100.00" "1.00" "I7"] := by
  have hg : mapGet feedPriced vBoth.btiPartNumber = some recPriced := rfl
  have hre : reconcileVariant feedPriced vBoth =
      sellabilityIntents recPriced vBoth ++ pricingIntents recPriced vBoth := by
    rw [reconcileVariant, hg]
  have hsell : sellabilityIntents recPriced vBoth = [Intent.setPolicy "V7" "DENY"] := by decide
  have hpct : vBoth.priceAdjustmentPercentage = none := rfl
  have hpr2 : pricingIntents recPriced vBoth =
      [Intent.setPricing "V7" "99.00" "100.00" "1.00" "I7"] := by
    simp only [pricingIntents, hpct]
    rw [if_neg (by decide : ¬ (vBoth.excludeFromPriceSync = true))]
    rw [if_pos (⟨by decide, by decide⟩ : 0 < recPriced.msrp ∧ 0 < recPriced.cost)]
    rw [eval_discounted_priced, eval_msrp_priced, eval_cost]
    rw [if_pos (Or.inl (by decide : ("99.00" : String) ≠ vBoth.price))]
    decide
  rw [hre, hsell, hpr2]
  rfl

/-- C1 (amended): the Executor has no per-intent failure isolation — the run
either succeeds (HTTP 200) with every attempted write successful, or the first
failed write call throws, the run reports the fatal status 500, and nothing
after that call is attempted: the run is fatal exactly when its last attempted
write failed, and every write before the last one succeeded. -/
theorem executor_abort_semantics (feed : List (String × BtiRecord)) (vs : List Variant)
    (oracle : Nat → Bool) :
    ((runSync feed vs oracle).1 = 200 ∨ (runSync feed vs oracle).1 = 500)
    ∧ ((runSync feed vs oracle).1 = 500 ↔
        0 < numWrites (runSync feed vs oracle).2 ∧
          oracle (numWrites (runSync feed vs oracle).2 - 1) = false)
    ∧ (∀ j, j + 1 < numWrites (runSync feed vs oracle).2 → oracle j = true) := by
  obtain ⟨hst, hsl, W, hw, hwle, hnum, hiff, hpre⟩ := execAll_spec feed oracle vs 0
  refine ⟨hst, ?_, ?_⟩
  · show (execAll feed oracle vs 0).1 = 500 ↔
      0 < numWrites (execAll feed oracle vs 0).2 ∧
        oracle (numWrites (execAll feed oracle vs 0).2 - 1) = false
    rw [hnum]
    simpa using hiff
  · intro j hj
    show oracle j = true
    rw [show numWrites (runSync feed vs oracle).2 = W from hnum] at hj
    simpa using hpre j hj

/-- Witness for `executor_abort_semantics` at a concrete run whose first
write fails. -/
theorem executor_abort_semantics_witness :
    ((runSync feedZero [vOut "V1", vOut "V2"] oracleFalse).1 = 200 ∨
      (runSync feedZero [vOut "V1", vOut "V2"] oracleFalse).1 = 500)
    ∧ ((runSync feedZero [vOut "V1", vOut "V2"] oracleFalse).1 = 500 ↔
        0 < numWrites (runSync feedZero [vOut "V1", vOut "V2"] oracleFalse).2 ∧
          oracleFalse (numWrites (runSync feedZero [vOut "V1", vOut "V2"] oracleFalse).2 - 1) =
            false)
    ∧ (∀ j, j + 1 < numWrites (runSync feedZero [vOut "V1", vOut "V2"] oracleFalse).2 →
        oracleFalse j = true) :=
  executor_abort_semantics feedZero [vOut "V1", vOut "V2"] oracleFalse

/-- C1 counterexample: partial-failure isolation is false — with two pending
intents and a failing first write the run does not attempt the remaining
intent and does not report success: it ends with status 500 after a single
write call. -/
theorem executor_partial_isolation_counterexample :
    ¬ (∀ (feed : List (String × BtiRecord)) (vs : List Variant) (oracle : Nat → Bool),
        (runSync feed vs oracle).1 = 200 ∧
          numWrites (runSync feed vs oracle).2 = (reconcile feed vs).length) := by
  intro h
  have h2 := h feedZero [vOut "V1", vOut "V2"] oracleFalse
  exact absurd h2.1 (by decide)

/-- C2 (amended): there is no retry and no backoff: the trace's write calls
are exactly the one-shot images of a prefix of the intent sequence — each
intent's write is invoked at most once, in order — and every pause in the
trace is the fixed 550 ms rate-limit pause, never a 2 s or 4 s backoff. -/
theorem executor_single_attempt (feed : List (String × BtiRecord)) (vs : List Variant)
    (oracle : Nat → Bool) :
    (∀ ms, Ev.sleepMs ms ∈ (runSync feed vs oracle).2 → ms = 550)
    ∧ writeEvs (runSync feed vs oracle).2 =
        ((reconcile feed vs).take (numWrites (runSync feed vs oracle).2)).map intentEv
    ∧ numWrites (runSync feed vs oracle).2 ≤ (reconcile feed vs).length := by
  obtain ⟨hst, hsl, W, hw, hwle, hnum, hiff, hpre⟩ := execAll_spec feed oracle vs 0
  refine ⟨hsl, ?_, ?_⟩
  · show writeEvs (execAll feed oracle vs 0).2 =
      ((reconcile feed vs).take (numWrites (execAll feed oracle vs 0).2)).map intentEv
    rw [hnum, hw]
  · show numWrites (execAll feed oracle vs 0).2 ≤ (reconcile feed vs).length
    rw [hnum]
    exact hwle

/-- Witness for `executor_single_attempt` at a concrete failing run. -/
theorem executor_single_attempt_witness :
    (∀ ms, Ev.sleepMs ms ∈ (runSync feedZero [vOut "V1", vOut "V2"] oracleFalse).2 → ms = 550)
    ∧ writeEvs (runSync feedZero [vOut "V1", vOut "V2"] oracleFalse).2 =
        ((reconcile feedZero [vOut "V1", vOut "V2"]).take
          (numWrites (runSync feedZero [vOut "V1", vOut "V2"] oracleFalse).2)).map intentEv
    ∧ numWrites (runSync feedZero [vOut "V1", vOut "V2"] oracleFalse).2 ≤
        (reconcile feedZero [vOut "V1", vOut "V2"]).length :=
  executor_single_attempt feedZero [vOut "V1", vOut "V2"] oracleFalse

/-- C2 counterexample: the claimed retry-with-backoff policy is false — after
a transiently failing first write with more work pending, a retrying executor
would produce at least one further event (a backoff pause, a second attempt,
or the next intent's write after recording the failure), but the code's trace
ends at the single failed call. -/
theorem executor_retry_counterexample :
    ¬ (∀ (feed : List (String × BtiRecord)) (vs : List Variant) (oracle : Nat → Bool),
        oracle 0 = false → 2 ≤ (reconcile feed vs).length →
        2 ≤ (runSync feed vs oracle).2.length) := by
  intro h
  have h2 := h feedZero [vOut "V1", vOut "V2"] oracleFalse rfl (by decide)
  exact absurd h2 (by decide)

/-- C7 (amended): the Executor handles variants strictly sequentially in
input order; in a run where every write succeeds the trace is exactly each
variant's writes in order followed by one 550 ms pause per variant that had at
least one update — the pause happens once per updated variant, after all of
that variant's writes, not once per intent. -/
theorem pacing_per_variant (feed : List (String × BtiRecord)) (vs : List Variant)
    (oracle : Nat → Bool) (h : ∀ j, oracle j = true) :
    runSync feed vs oracle = (200, successTrace feed vs)
    ∧ numSleeps (successTrace feed vs) =
        (vs.filter (fun v => !(reconcileVariant feed v).isEmpty)).length := by
  constructor
  · exact execAll_success feed oracle h vs 0
  · induction vs with
    | nil => rfl
    | cons v rest ih =>
        rw [successTrace_cons, numSleeps_append]
        by_cases hl : reconcileVariant feed v = []
        · rw [if_pos hl]
          have hf : (v :: rest).filter (fun v => !(reconcileVariant feed v).isEmpty) =
              rest.filter (fun v => !(reconcileVariant feed v).isEmpty) := by
            rw [List.filter_cons]
            simp [hl]
          rw [hf, ← ih]
          simp [numSleeps]
        · rw [if_neg hl]
          have hf : (v :: rest).filter (fun v => !(reconcileVariant feed v).isEmpty) =
              v :: rest.filter (fun v => !(reconcileVariant feed v).isEmpty) := by
            rw [List.filter_cons]
            simp [List.isEmpty_iff, hl]
          rw [hf, numSleeps_append, numSleeps_map_intentEv, List.length_cons, ← ih]
          have h550 : (List.filter (fun e => !isWriteEv e) [Ev.sleepMs 550]).length = 1 := rfl
          simp [numSleeps, h550]
          omega

/-- Witness for `pacing_per_variant` at a concrete all-success run. -/
theorem pacing_per_variant_witness :
    runSync feedPriced [vBoth] oracleTrue = (200, successTrace feedPriced [vBoth])
    ∧ numSleeps (successTrace feedPriced [vBoth]) =
        ([vBoth].filter (fun v => !(reconcileVariant feedPriced v).isEmpty)).length :=
  pacing_per_variant feedPriced [vBoth] oracleTrue (fun _ => rfl)

/-- C7 counterexample: the delay is not taken once per applied intent — a
variant needing both an availability and a pricing update yields two write
calls but only one 550 ms pause, with no pause between the two writes. -/
theorem pacing_per_intent_counterexample :
    ¬ (∀ (feed : List (String × BtiRecord)) (vs : List Variant) (oracle : Nat → Bool),
        (∀ j, oracle j = true) →
        numSleeps (runSync feed vs oracle).2 = numWrites (runSync feed vs oracle).2) := by
  intro h
  have h2 := h feedPriced [vBoth] oracleTrue (fun _ => rfl)
  rw [show runSync feedPriced [vBoth] oracleTrue = (200, successTrace feedPriced [vBoth]) from
    execAll_success feedPriced oracleTrue (fun _ => rfl) [vBoth] 0] at h2
  rw [show successTrace feedPriced [vBoth] =
      [Ev.writePolicy "V7" "DENY", Ev.writePricing "V7" "99.00" "100.00" "1.00" "I7",
        Ev.sleepMs 550] from by
    rw [successTrace_cons, if_neg (by rw [reconcile_vBoth]; decide), reconcile_vBoth]
    rfl] at h2
  exact absurd h2 (by decide)
